import Mathlib

/-!
Verification of the finite-difference coefficient generator and sparse
operator assembly of the math-802 course materials.

The repository's notebooks define, in Python/NumPy/SciPy:
  * `first_deriv_matrix (x, w)` (1d_advection/02 Absolute Stability Examples),
  * `first_deriv_matrix_per (n, dx, w)` (1d_advection/04 The Need for
    High-Order Methods),
  * a 2-D Poisson assembly loop (2d_elliptic_fd/Basics),
all of which call `fd_tools.fd_coeff` — a module that is not part of the
repository's source tree and is therefore modelled from the specification.

Real numbers are embedded as `ℚ` (all arithmetic the claims concern is exact
rational arithmetic on rational inputs), NumPy arrays as `List ℚ`, Python
`range`/indexing/slicing as explicit functions on `Int` with Python semantics,
and SciPy COO/CSR sparse matrices as lists of `(row, column, value)` triples
whose entry function sums duplicate positions, as the SciPy constructor does.
-/

namespace FD

/-! ### Dense polynomials as coefficient lists (ascending powers) -/

/-- Addition of coefficient lists (pads with the longer list's tail). -/
def polyAdd : List ℚ → List ℚ → List ℚ
  | [], q => q
  | p, [] => p
  | a :: p, b :: q => (a + b) :: polyAdd p q

/-- Scalar multiple of a coefficient list. -/
def polyScale (r : ℚ) (p : List ℚ) : List ℚ :=
  p.map (fun a => r * a)

/-- Product of coefficient lists. -/
def polyMul : List ℚ → List ℚ → List ℚ
  | [], _ => []
  | a :: p, q => polyAdd (polyScale a q) ((0 : ℚ) :: polyMul p q)

/-- Formal derivative of a coefficient list. -/
def polyDeriv : List ℚ → List ℚ
  | [] => []
  | _ :: t => polyAdd t ((0 : ℚ) :: polyDeriv t)

/-- Horner evaluation of a coefficient list. -/
def polyEval (x : ℚ) : List ℚ → ℚ
  | [] => 0
  | a :: p => a + x * polyEval x p

/-- Interpretation of a coefficient list as a Mathlib polynomial. -/
noncomputable def toPoly : List ℚ → Polynomial ℚ
  | [] => 0
  | a :: p => Polynomial.C a + Polynomial.X * toPoly p

open Polynomial in
theorem toPoly_nil : toPoly [] = 0 := rfl

open Polynomial in
theorem toPoly_cons (a : ℚ) (p : List ℚ) :
    toPoly (a :: p) = Polynomial.C a + Polynomial.X * toPoly p := rfl

theorem toPoly_polyAdd (p q : List ℚ) :
    toPoly (polyAdd p q) = toPoly p + toPoly q := by
  induction p generalizing q with
  | nil => simp [polyAdd, toPoly]
  | cons a p ih =>
    cases q with
    | nil => simp [polyAdd, toPoly]
    | cons b q =>
      simp only [polyAdd, toPoly_cons, ih, Polynomial.C_add]
      ring

theorem toPoly_polyScale (r : ℚ) (p : List ℚ) :
    toPoly (polyScale r p) = Polynomial.C r * toPoly p := by
  induction p with
  | nil => simp [polyScale, toPoly]
  | cons a p ih =>
    simp only [polyScale, List.map_cons, toPoly_cons, Polynomial.C_mul] at *
    rw [ih]
    ring

theorem toPoly_polyMul (p q : List ℚ) :
    toPoly (polyMul p q) = toPoly p * toPoly q := by
  induction p with
  | nil => simp [polyMul, toPoly]
  | cons a p ih =>
    simp only [polyMul, toPoly_polyAdd, toPoly_polyScale, toPoly_cons, ih,
      map_zero]
    ring

theorem toPoly_polyDeriv (p : List ℚ) :
    toPoly (polyDeriv p) = Polynomial.derivative (toPoly p) := by
  induction p with
  | nil => simp [polyDeriv, toPoly]
  | cons a p ih =>
    simp only [polyDeriv, toPoly_polyAdd, toPoly_cons, ih,
      Polynomial.derivative_add, Polynomial.derivative_C,
      Polynomial.derivative_mul, Polynomial.derivative_X, map_zero]
    ring

theorem polyEval_eq_eval (x : ℚ) (p : List ℚ) :
    polyEval x p = (toPoly p).eval x := by
  induction p with
  | nil => simp [polyEval, toPoly]
  | cons a p ih => simp [polyEval, toPoly_cons, ih]

theorem toPoly_polyDeriv_iterate (d : ℕ) (p : List ℚ) :
    toPoly (polyDeriv^[d] p) = Polynomial.derivative^[d] (toPoly p) := by
  induction d generalizing p with
  | zero => simp
  | succ d ih =>
    rw [Function.iterate_succ_apply, Function.iterate_succ_apply, ih,
      toPoly_polyDeriv]

theorem sum_map_range (n : ℕ) (f : ℕ → ℚ) :
    ((List.range n).map f).sum = ∑ i ∈ Finset.range n, f i := by
  induction n with
  | zero => simp
  | succ n ih =>
    rw [List.range_succ, List.map_append, List.sum_append,
      Finset.sum_range_succ, ih]
    simp

theorem degree_lt_of_natDegree_le (p : Polynomial ℚ) (k : ℕ)
    (h : p.natDegree ≤ k) : p.degree < ((k + 1 : ℕ) : WithBot ℕ) := by
  rcases eq_or_ne p 0 with rfl | hp
  · rw [Polynomial.degree_zero]
    exact WithBot.bot_lt_coe _
  · rw [← Polynomial.natDegree_lt_iff_degree_lt hp]
    omega

/-! ### The finite-difference coefficient generator

`fd_tools.fd_coeff` is imported by the notebooks (`import fd_tools as fd`)
but the module itself is not part of the repository's source tree, so it is
modelled from the specification below. -/

/-- `∏ (X − r)` over a list of roots `l`, as a coefficient list. -/
def prodLin (l : List ℚ) : List ℚ :=
  (l.map (fun r => [-r, (1 : ℚ)])).foldr polyMul [1]

/-- Denominator `∏_{j ≠ i} (x_i − x_j)` of the `i`-th Lagrange basis
polynomial for the node list `xs`. -/
def lagDenom (xs : List ℚ) (i : ℕ) : ℚ :=
  ((xs.eraseIdx i).map (fun xj => xs.getD i 0 - xj)).prod

/-- The `i`-th Lagrange basis polynomial for the node list `xs`,
`∏_{j ≠ i} (X − x_j) / (x_i − x_j)`, as a coefficient list. -/
def lagBasisList (xs : List ℚ) (i : ℕ) : List ℚ :=
  polyScale (lagDenom xs i)⁻¹ (prodLin (xs.eraseIdx i))

/-- Modelled from the spec: the repository imports `fd_tools` (not present in
the source tree), whose `fd_coeff(order, x0, nodes) -> coefficients` is
specified in §4.1 as: given a derivative order `d ≥ 0`, an evaluation point
`x0` and distinct node locations, return the coefficient vector obtained by
solving the linear system that requires exactness on monomials in the node
offsets (a Vandermonde system), handling non-uniform spacing, and failing if
fewer than `d + 1` distinct nodes are supplied or if nodes coincide.  The
unique solution of that system is realized here in closed form: coefficient
`i` is the `d`-th derivative of the `i`-th Lagrange basis polynomial of the
nodes, evaluated at `x0` (the theorem `fd_coeff_vandermonde` below proves
that this vector satisfies the spec's exactness system). -/
def fd_coeff (d : ℕ) (x0 : ℚ) (xs : List ℚ) : Option (List ℚ) :=
  if d + 1 ≤ xs.length ∧ xs.Nodup then
    some ((List.range xs.length).map (fun i =>
      polyEval x0 (polyDeriv^[d] (lagBasisList xs i))))
  else none

theorem fd_coeff_eq_some {d : ℕ} {x0 : ℚ} {xs : List ℚ}
    (h : d + 1 ≤ xs.length ∧ xs.Nodup) :
    fd_coeff d x0 xs = some ((List.range xs.length).map (fun i =>
      polyEval x0 (polyDeriv^[d] (lagBasisList xs i)))) := by
  simp [fd_coeff, h]

theorem fd_coeff_length {d : ℕ} {x0 : ℚ} {xs c : List ℚ}
    (h : fd_coeff d x0 xs = some c) : c.length = xs.length := by
  by_cases hc : d + 1 ≤ xs.length ∧ xs.Nodup
  · rw [fd_coeff_eq_some hc] at h
    cases h
    simp
  · simp [fd_coeff, hc] at h

theorem toPoly_prodLin (l : List ℚ) :
    toPoly (prodLin l) =
      (l.map (fun r => Polynomial.X - Polynomial.C r)).prod := by
  induction l with
  | nil => simp [prodLin, toPoly]
  | cons r l ih =>
    simp only [prodLin, List.map_cons, List.foldr_cons, toPoly_polyMul,
      List.prod_cons] at *
    rw [ih]
    congr 1
    simp [toPoly, Polynomial.C_neg]
    ring

theorem eval_toPoly_prodLin (y : ℚ) (l : List ℚ) :
    (toPoly (prodLin l)).eval y = (l.map (fun r => y - r)).prod := by
  rw [toPoly_prodLin, Polynomial.eval_list_prod, List.map_map]
  congr 1
  ext r
  simp

theorem natDegree_toPoly_prodLin (l : List ℚ) :
    (toPoly (prodLin l)).natDegree ≤ l.length := by
  rw [toPoly_prodLin]
  refine le_trans (Polynomial.natDegree_list_prod_le _) ?_
  rw [List.map_map]
  refine le_trans (List.sum_le_card_nsmul _ 1 ?_) ?_
  · intro a ha
    simp only [List.mem_map, Function.comp_apply] at ha
    obtain ⟨r, _, rfl⟩ := ha
    simp [Polynomial.natDegree_X_sub_C]
  · simp

theorem getElem_not_mem_eraseIdx {xs : List ℚ} (hnd : xs.Nodup)
    {i : ℕ} (hi : i < xs.length) : xs[i] ∉ xs.eraseIdx i := by
  intro hmem
  obtain ⟨t, ht, hEq⟩ := List.mem_iff_getElem.mp hmem
  rw [List.getElem_eraseIdx] at hEq
  have hlen : (xs.eraseIdx i).length = xs.length - 1 := by
    rw [List.length_eraseIdx, if_pos hi]
  split at hEq
  · exact absurd ((hnd.getElem_inj_iff).mp hEq) (by omega)
  · exact absurd ((hnd.getElem_inj_iff).mp hEq) (by omega)

theorem getElem_mem_eraseIdx {xs : List ℚ} {i j : ℕ} (hj : j < xs.length)
    (hij : j ≠ i) : xs[j] ∈ xs.eraseIdx i := by
  rcases lt_or_gt_of_ne hij with h | h
  · refine List.mem_iff_getElem.mpr ⟨j, ?_, ?_⟩
    · rw [List.length_eraseIdx]
      split <;> omega
    · rw [List.getElem_eraseIdx, dif_pos h]
  · refine List.mem_iff_getElem.mpr ⟨j - 1, ?_, ?_⟩
    · rw [List.length_eraseIdx]
      split <;> omega
    · rw [List.getElem_eraseIdx, dif_neg (by omega)]
      congr 1
      omega

theorem lagDenom_ne_zero {xs : List ℚ} (hnd : xs.Nodup) {i : ℕ}
    (hi : i < xs.length) : lagDenom xs i ≠ 0 := by
  refine List.prod_ne_zero ?_
  intro hmem
  simp only [List.mem_map] at hmem
  obtain ⟨xj, hxj, hEq⟩ := hmem
  have hx : xs[i] = xj := by
    have h0 := sub_eq_zero.mp hEq
    rwa [List.getD_eq_getElem xs 0 hi] at h0
  exact getElem_not_mem_eraseIdx hnd hi (hx ▸ hxj)

theorem eval_lagBasis_self {xs : List ℚ} (hnd : xs.Nodup) {i : ℕ}
    (hi : i < xs.length) :
    (toPoly (lagBasisList xs i)).eval (xs.getD i 0) = 1 := by
  rw [lagBasisList, toPoly_polyScale, Polynomial.eval_mul, Polynomial.eval_C,
    eval_toPoly_prodLin]
  rw [show ((xs.eraseIdx i).map (fun r => xs.getD i 0 - r)).prod
      = lagDenom xs i from rfl]
  rw [inv_mul_cancel₀ (lagDenom_ne_zero hnd hi)]

theorem eval_lagBasis_of_ne {xs : List ℚ} {i j : ℕ} (hj : j < xs.length)
    (hij : j ≠ i) :
    (toPoly (lagBasisList xs i)).eval (xs.getD j 0) = 0 := by
  rw [lagBasisList, toPoly_polyScale, Polynomial.eval_mul, Polynomial.eval_C,
    eval_toPoly_prodLin]
  have hz : (0 : ℚ) ∈ (xs.eraseIdx i).map (fun r => xs.getD j 0 - r) := by
    refine List.mem_map.mpr ⟨xs.getD j 0, ?_, by ring⟩
    rw [List.getD_eq_getElem xs 0 hj]
    exact getElem_mem_eraseIdx hj hij
  rw [List.prod_eq_zero hz, mul_zero]

theorem natDegree_lagBasis {xs : List ℚ} {i : ℕ} (hi : i < xs.length) :
    (toPoly (lagBasisList xs i)).natDegree ≤ xs.length - 1 := by
  rw [lagBasisList, toPoly_polyScale]
  refine le_trans (Polynomial.natDegree_mul_le) ?_
  rw [Polynomial.natDegree_C, zero_add]
  refine le_trans (natDegree_toPoly_prodLin _) ?_
  rw [List.length_eraseIdx, if_pos hi]

theorem degree_lagBasis {xs : List ℚ} {i : ℕ} (hi : i < xs.length) :
    (toPoly (lagBasisList xs i)).degree < ((xs.length : ℕ) : WithBot ℕ) := by
  have h := degree_lt_of_natDegree_le _ _ (natDegree_lagBasis hi)
  have : xs.length - 1 + 1 = xs.length := by omega
  rwa [this] at h

/-- The Lagrange interpolation identity for the basis lists: a polynomial
of degree below the node count is reproduced by interpolation at the nodes. -/
theorem interpolation_identity {xs : List ℚ} (hnd : xs.Nodup)
    (p : Polynomial ℚ) (hp : p.degree < ((xs.length : ℕ) : WithBot ℕ)) :
    ∑ i ∈ Finset.range xs.length,
      Polynomial.C (p.eval (xs.getD i 0)) * toPoly (lagBasisList xs i) = p := by
  have hinj : Set.InjOn (fun j => xs.getD j 0) (Finset.range xs.length) := by
    intro a ha b hb hEq
    simp only [Finset.coe_range, Set.mem_Iio] at ha hb
    have hEq' : xs.getD a 0 = xs.getD b 0 := hEq
    rw [List.getD_eq_getElem xs 0 ha, List.getD_eq_getElem xs 0 hb] at hEq'
    exact (hnd.getElem_inj_iff).mp hEq'
  have hcard : (Finset.range xs.length).card = xs.length := Finset.card_range _
  refine Polynomial.eq_of_degrees_lt_of_eval_index_eq _ hinj ?_ ?_ ?_
  · rw [hcard]
    refine lt_of_le_of_lt (Polynomial.degree_sum_le _ _) ?_
    rw [Finset.sup_lt_iff (by exact WithBot.bot_lt_coe _)]
    intro b hb
    refine lt_of_le_of_lt ?_ (degree_lagBasis (Finset.mem_range.mp hb))
    rcases eq_or_ne (p.eval (xs.getD b 0)) 0 with h0 | h0
    · rw [h0, map_zero, zero_mul, Polynomial.degree_zero]
      exact bot_le
    · rw [Polynomial.degree_C_mul h0]
  · rw [hcard]
    exact hp
  · intro j hj
    have hjlt := Finset.mem_range.mp hj
    rw [Polynomial.eval_finset_sum]
    rw [Finset.sum_eq_single j]
    · rw [Polynomial.eval_mul, Polynomial.eval_C,
        eval_lagBasis_self hnd hjlt, mul_one]
    · intro b _ hbj
      rw [Polynomial.eval_mul, eval_lagBasis_of_ne hjlt (Ne.symm hbj),
        mul_zero]
    · intro h
      exact absurd hj h

/-- Core exactness property: the coefficients returned by `fd_coeff` applied
to the samples of any polynomial of degree below the node count recover the
exact `d`-th derivative at `x0`. -/
theorem fd_coeff_exact {d : ℕ} {x0 : ℚ} {xs c : List ℚ} (hnd : xs.Nodup)
    (hc : fd_coeff d x0 xs = some c) (p : Polynomial ℚ)
    (hp : p.degree < ((xs.length : ℕ) : WithBot ℕ)) :
    ∑ i ∈ Finset.range xs.length, c.getD i 0 * p.eval (xs.getD i 0) =
      (Polynomial.derivative^[d] p).eval x0 := by
  by_cases hok : d + 1 ≤ xs.length ∧ xs.Nodup
  · rw [fd_coeff_eq_some hok] at hc
    cases hc
    have hgetD : ∀ i ∈ Finset.range xs.length,
        ((List.range xs.length).map (fun i =>
          polyEval x0 (polyDeriv^[d] (lagBasisList xs i)))).getD i 0 =
          polyEval x0 (polyDeriv^[d] (lagBasisList xs i)) := by
      intro i hi
      have hlt := Finset.mem_range.mp hi
      rw [List.getD_eq_getElem _ 0 (by simpa using hlt)]
      simp
    calc ∑ i ∈ Finset.range xs.length,
          ((List.range xs.length).map (fun i =>
            polyEval x0 (polyDeriv^[d] (lagBasisList xs i)))).getD i 0 *
            p.eval (xs.getD i 0)
        = ∑ i ∈ Finset.range xs.length,
            (Polynomial.derivative^[d]
              (Polynomial.C (p.eval (xs.getD i 0)) *
                toPoly (lagBasisList xs i))).eval x0 := by
          refine Finset.sum_congr rfl ?_
          intro i hi
          rw [hgetD i hi, polyEval_eq_eval, toPoly_polyDeriv_iterate,
            Polynomial.iterate_derivative_C_mul, Polynomial.eval_mul,
            Polynomial.eval_C]
          ring
      _ = (Polynomial.derivative^[d]
            (∑ i ∈ Finset.range xs.length,
              Polynomial.C (p.eval (xs.getD i 0)) *
                toPoly (lagBasisList xs i))).eval x0 := by
          rw [Polynomial.iterate_derivative_sum, Polynomial.eval_finset_sum]
      _ = (Polynomial.derivative^[d] p).eval x0 := by
          rw [interpolation_identity hnd p hp]
  · simp [fd_coeff, hok] at hc

/-- The vector produced by `fd_coeff` satisfies the spec's defining
Vandermonde/Taylor exactness system in the node offsets: applying it to the
samples of the monomial `(x − x0)^j` yields `d!` for `j = d` and `0` for
every other `j` below the node count. -/
theorem fd_coeff_vandermonde {d : ℕ} {x0 : ℚ} {xs c : List ℚ}
    (hnd : xs.Nodup) (hc : fd_coeff d x0 xs = some c) {j : ℕ}
    (hj : j < xs.length) :
    ∑ i ∈ Finset.range xs.length, c.getD i 0 * (xs.getD i 0 - x0) ^ j =
      if j = d then (d.factorial : ℚ) else 0 := by
  have hp : ((Polynomial.X - Polynomial.C x0) ^ j : Polynomial ℚ).degree <
      ((xs.length : ℕ) : WithBot ℕ) := by
    have h1 : ((Polynomial.X - Polynomial.C x0) ^ j : Polynomial ℚ).natDegree
        ≤ j :=
      le_trans Polynomial.natDegree_pow_le
        (by rw [Polynomial.natDegree_X_sub_C, mul_one])
    refine lt_of_lt_of_le (degree_lt_of_natDegree_le _ j h1) ?_
    exact_mod_cast (by omega : j + 1 ≤ xs.length)
  have h := fd_coeff_exact hnd hc ((Polynomial.X - Polynomial.C x0) ^ j) hp
  calc ∑ i ∈ Finset.range xs.length, c.getD i 0 * (xs.getD i 0 - x0) ^ j
      = ∑ i ∈ Finset.range xs.length, c.getD i 0 *
          (((Polynomial.X - Polynomial.C x0) ^ j : Polynomial ℚ).eval
            (xs.getD i 0)) := by
        refine Finset.sum_congr rfl ?_
        intro i _
        rw [Polynomial.eval_pow, Polynomial.eval_sub, Polynomial.eval_X,
          Polynomial.eval_C]
    _ = (Polynomial.derivative^[d]
          ((Polynomial.X - Polynomial.C x0) ^ j : Polynomial ℚ)).eval x0 := h
    _ = if j = d then (d.factorial : ℚ) else 0 := by
        rw [Polynomial.iterate_derivative_X_sub_pow]
        rcases lt_trichotomy j d with hlt | rfl | hgt
        · rw [Nat.descFactorial_eq_zero_iff_lt.mpr hlt, if_neg (by omega)]
          simp
        · rw [if_pos rfl, Nat.sub_self, pow_zero, nsmul_eq_mul, mul_one,
            Polynomial.eval_natCast, Nat.descFactorial_self]
        · rw [if_neg (by omega)]
          rw [nsmul_eq_mul, Polynomial.eval_mul, Polynomial.eval_pow,
            Polynomial.eval_sub, Polynomial.eval_X, Polynomial.eval_C,
            sub_self, zero_pow (by omega : j - d ≠ 0), mul_zero]

/-! ### Python sequence semantics

`range`, indexing and slicing with Python's conventions (negative indices
wrap around, slice bounds clamp, out-of-range indexing raises). -/

/-- Python `range(a, b)` over integers. -/
def pyRange (a b : ℤ) : List ℤ :=
  List.map (fun k : ℕ => a + (k : ℤ)) (List.range (b - a).toNat)

/-- Python indexing `l[i]`: negative indices count from the end, indices out
of `[-len, len)` raise `IndexError` (here: `none`). -/
def pyGet (l : List ℚ) (i : ℤ) : Option ℚ :=
  if 0 ≤ i ∧ i < l.length then some (l.getD i.toNat 0)
  else if -(l.length : ℤ) ≤ i ∧ i < 0 then
    some (l.getD (i + l.length).toNat 0)
  else none

/-- Clamp of a Python slice bound for a list of length `n` to `[0, n]`. -/
def pyClamp (n : ℕ) (a : ℤ) : ℕ :=
  if a < 0 then (a + n).toNat else min a.toNat n

/-- Python slicing `l[a:b]`. -/
def pySlice (l : List ℚ) (a b : ℤ) : List ℚ :=
  (l.take (pyClamp l.length b)).drop (pyClamp l.length a)

/-- Sequencing an option-valued body over a list: the effect of a Python
`for` loop whose body may raise (the first raise aborts the whole call). -/
def optMap {α β : Type} (f : α → Option β) : List α → Option (List β)
  | [] => some []
  | a :: l => do
    let b ← f a
    let r ← optMap f l
    pure (b :: r)

theorem optMap_eq_map {α β : Type} (f : α → Option β) (g : α → β)
    (l : List α) (h : ∀ a ∈ l, f a = some (g a)) :
    optMap f l = some (l.map g) := by
  induction l with
  | nil => rfl
  | cons a l ih =>
    rw [optMap, h a (List.mem_cons_self a l),
      ih (fun b hb => h b (List.mem_cons_of_mem a hb))]
    rfl

theorem optMap_eq_none {α β : Type} (f : α → Option β) {l : List α} {a : α}
    (ha : a ∈ l) (hfa : f a = none) : optMap f l = none := by
  induction l with
  | nil => cases ha
  | cons b l ih =>
    rcases List.mem_cons.mp ha with rfl | ha'
    · rw [optMap, hfa]
      rfl
    · rw [optMap]
      cases hb : f b
      · rfl
      · rw [ih ha']
        rfl

theorem optMap_forall₂ {α β : Type} {f : α → Option β} {l : List α}
    {r : List β} (h : optMap f l = some r) :
    List.Forall₂ (fun a b => f a = some b) l r := by
  induction l generalizing r with
  | nil =>
    cases h
    exact List.Forall₂.nil
  | cons a l ih =>
    rw [optMap] at h
    cases hfa : f a with
    | none => rw [hfa] at h; cases h
    | some b =>
      rw [hfa] at h
      cases hrest : optMap f l with
      | none => rw [hrest] at h; cases h
      | some rs =>
        rw [hrest] at h
        cases h
        exact List.Forall₂.cons hfa (ih hrest)

/-! ### COO sparse matrices -/

/-- Entry lookup in a COO triple list: SciPy's constructors sum duplicate
positions, so the `(r, c)` entry is the sum of all matching values. -/
def cooEntry (m : List (ℤ × ℤ × ℚ)) (r c : ℤ) : ℚ :=
  (m.map (fun t => if t.1 = r ∧ t.2.1 = c then t.2.2 else 0)).sum

/-- The sum of all stored values in row `r` of a COO triple list. -/
def cooRowSum (m : List (ℤ × ℤ × ℚ)) (r : ℤ) : ℚ :=
  (m.map (fun t => if t.1 = r then t.2.2 else 0)).sum

/-- The SciPy `*_matrix((data, (I, J)))` constructor without an explicit
shape: the three arrays must have equal lengths, indices must be
non-negative, and at least one entry must exist (otherwise the shape cannot
be inferred); the result is the list of `(row, column, value)` triples. -/
def cooCtor (data : List ℚ) (rI cJ : List ℤ) : Option (List (ℤ × ℤ × ℚ)) :=
  if data.length = rI.length ∧ cJ.length = rI.length ∧
      (∀ i ∈ rI, 0 ≤ i) ∧ (∀ j ∈ cJ, 0 ≤ j) ∧ rI ≠ [] then
    some (rI.zip (cJ.zip data))
  else none

/-- The SciPy `*_matrix((data, (I, J)), (m, m))` constructor with an explicit
square shape: lengths must agree and all indices must lie inside the shape. -/
def cooCtorShape (m : ℤ) (data : List ℚ) (rI cJ : List ℤ) :
    Option (List (ℤ × ℤ × ℚ)) :=
  if data.length = rI.length ∧ cJ.length = rI.length ∧
      (∀ i ∈ rI, 0 ≤ i ∧ i < m) ∧ (∀ j ∈ cJ, 0 ≤ j ∧ j < m) then
    some (rI.zip (cJ.zip data))
  else none

/-- The shape SciPy infers from non-empty COO data: one more than the largest
row and column index. -/
def cooShape (m : List (ℤ × ℤ × ℚ)) : ℤ × ℤ :=
  ((m.map (fun t => t.1)).foldr max (-1) + 1,
   (m.map (fun t => t.2.1)).foldr max (-1) + 1)

theorem cooEntry_nil (r c : ℤ) : cooEntry [] r c = 0 := rfl

theorem cooEntry_cons (t : ℤ × ℤ × ℚ) (m : List (ℤ × ℤ × ℚ)) (r c : ℤ) :
    cooEntry (t :: m) r c =
      (if t.1 = r ∧ t.2.1 = c then t.2.2 else 0) + cooEntry m r c := by
  rw [cooEntry, List.map_cons, List.sum_cons]
  rfl

theorem cooEntry_append (m₁ m₂ : List (ℤ × ℤ × ℚ)) (r c : ℤ) :
    cooEntry (m₁ ++ m₂) r c = cooEntry m₁ r c + cooEntry m₂ r c := by
  rw [cooEntry, List.map_append, List.sum_append]
  rfl

theorem cooRowSum_append (m₁ m₂ : List (ℤ × ℤ × ℚ)) (r : ℤ) :
    cooRowSum (m₁ ++ m₂) r = cooRowSum m₁ r + cooRowSum m₂ r := by
  rw [cooRowSum, List.map_append, List.sum_append]
  rfl

theorem cooEntry_of_ne_row {m : List (ℤ × ℤ × ℚ)} {r : ℤ}
    (h : ∀ t ∈ m, t.1 ≠ r) (c : ℤ) : cooEntry m r c = 0 := by
  induction m with
  | nil => rfl
  | cons t m ih =>
    rw [cooEntry_cons,
      if_neg (fun hc => h t (List.mem_cons_self t m) hc.1),
      ih (fun b hb => h b (List.mem_cons_of_mem t hb)), add_zero]

theorem cooRowSum_of_ne_row {m : List (ℤ × ℤ × ℚ)} {r : ℤ}
    (h : ∀ t ∈ m, t.1 ≠ r) : cooRowSum m r = 0 := by
  induction m with
  | nil => rfl
  | cons t m ih =>
    rw [cooRowSum, List.map_cons, List.sum_cons,
      if_neg (h t (List.mem_cons_self t m)),
      show (List.map _ m).sum = cooRowSum m r from rfl,
      ih (fun b hb => h b (List.mem_cons_of_mem t hb)), add_zero]

theorem rowZip_fst {i : ℤ} {n : ℕ} {cols : List ℤ} {vals : List ℚ}
    {t : ℤ × ℤ × ℚ} (ht : t ∈ (List.replicate n i).zip (cols.zip vals)) :
    t.1 = i :=
  List.eq_of_mem_replicate (List.of_mem_zip ht).1

theorem rowZip_snd {i : ℤ} {n : ℕ} {cols : List ℤ} {vals : List ℚ}
    {t : ℤ × ℤ × ℚ} (ht : t ∈ (List.replicate n i).zip (cols.zip vals)) :
    t.2.1 ∈ cols :=
  (List.of_mem_zip (List.of_mem_zip ht).2).1

/-- Entry in a single assembled row: the `(i, c)` entry of the block pairing
row index `i` with columns `cols` and values `vals` is the sum of the values
at the matching columns. -/
theorem cooEntry_rowZip (i c : ℤ) (cols : List ℤ) (vals : List ℚ) :
    cooEntry ((List.replicate cols.length i).zip (cols.zip vals)) i c =
      ((cols.zip vals).map (fun cv => if cv.1 = c then cv.2 else 0)).sum := by
  induction cols generalizing vals with
  | nil => rfl
  | cons c0 cols ih =>
    cases vals with
    | nil => rfl
    | cons v0 vals =>
      rw [List.length_cons, List.replicate_succ, List.zip_cons_cons,
        List.zip_cons_cons, cooEntry_cons, List.map_cons, List.sum_cons,
        ih vals]
      congr 1
      simp

theorem zipSum_of_not_mem {c : ℤ} {cols : List ℤ} (vals : List ℚ)
    (h : c ∉ cols) :
    ((cols.zip vals).map (fun cv => if cv.1 = c then cv.2 else 0)).sum = 0 := by
  induction cols generalizing vals with
  | nil => rfl
  | cons c0 cols ih =>
    cases vals with
    | nil => rfl
    | cons v0 vals =>
      rw [List.zip_cons_cons, List.map_cons, List.sum_cons,
        if_neg (by
          intro hEq
          exact h (hEq ▸ List.mem_cons_self c0 cols)),
        ih vals (fun hm => h (List.mem_cons_of_mem c0 hm)), add_zero]

theorem zipSum_getD {cols : List ℤ} {vals : List ℚ} (hnd : cols.Nodup)
    (hlen : vals.length = cols.length) {t : ℕ} (ht : t < cols.length) :
    ((cols.zip vals).map
      (fun cv => if cv.1 = cols.getD t 0 then cv.2 else 0)).sum =
      vals.getD t 0 := by
  induction cols generalizing vals t with
  | nil => cases ht
  | cons c0 cols ih =>
    cases vals with
    | nil => cases hlen
    | cons v0 vals =>
      rw [List.zip_cons_cons, List.map_cons, List.sum_cons]
      cases t with
      | zero =>
        rw [List.getD_cons_zero, if_pos rfl, List.getD_cons_zero,
          zipSum_of_not_mem vals (List.nodup_cons.mp hnd).1, add_zero]
      | succ t =>
        have htl : t < cols.length := by
          simpa using ht
        have hmem : cols.getD t 0 ∈ cols := by
          rw [List.getD_eq_getElem cols 0 htl]
          exact List.getElem_mem htl
        rw [List.getD_cons_succ, List.getD_cons_succ,
          if_neg (by
            intro hEq
            refine (List.nodup_cons.mp hnd).1 ?_
            rw [show c0 = cols.getD t 0 from hEq]
            exact hmem),
          ih (List.nodup_cons.mp hnd).2 (by simpa using hlen) htl, zero_add]

theorem cooRowSum_rowZip (i : ℤ) (cols : List ℤ) (vals : List ℚ)
    (hlen : cols.length = vals.length) :
    cooRowSum ((List.replicate cols.length i).zip (cols.zip vals)) i =
      vals.sum := by
  induction cols generalizing vals with
  | nil =>
    cases vals with
    | nil => rfl
    | cons v0 vals => cases hlen
  | cons c0 cols ih =>
    cases vals with
    | nil => cases hlen
    | cons v0 vals =>
      rw [List.length_cons, List.replicate_succ, List.zip_cons_cons,
        List.zip_cons_cons, cooRowSum, List.map_cons, List.sum_cons,
        if_pos rfl, List.sum_cons,
        show (List.map _ _).sum = cooRowSum
          ((List.replicate cols.length i).zip (cols.zip vals)) i from rfl,
        ih vals (by simpa using hlen)]

theorem sum_map_add_list {α : Type} (l : List α) (f g : α → ℚ) :
    (l.map (fun a => f a + g a)).sum = (l.map f).sum + (l.map g).sum := by
  induction l with
  | nil => simp
  | cons a l ih =>
    rw [List.map_cons, List.sum_cons, ih, List.map_cons, List.sum_cons,
      List.map_cons, List.sum_cons]
    ring

theorem sum_ite_single {l : List ℤ} (hnd : l.Nodup) {c : ℤ} (hc : c ∈ l)
    (f : ℤ → ℚ) :
    (l.map (fun j => if c = j then f j else 0)).sum = f c := by
  induction l with
  | nil => cases hc
  | cons a l ih =>
    rw [List.map_cons, List.sum_cons]
    rcases List.mem_cons.mp hc with rfl | hmem
    · rw [if_pos rfl]
      have : ∀ j ∈ l, (if c = j then f j else 0) = 0 := by
        intro j hj
        rw [if_neg (by
          intro hEq
          exact (List.nodup_cons.mp hnd).1 (hEq ▸ hj))]
      rw [List.sum_eq_zero (by
        intro x hx
        obtain ⟨j, hj, rfl⟩ := List.mem_map.mp hx
        exact this j hj), add_zero]
    · rw [if_neg (by
          intro hEq
          exact (List.nodup_cons.mp hnd).1 (hEq ▸ hmem)),
        ih (List.nodup_cons.mp hnd).2 hmem, zero_add]

theorem length_pyRange (a b : ℤ) : (pyRange a b).length = (b - a).toNat := by
  simp [pyRange]

theorem getElem_pyRange (a b : ℤ) {k : ℕ} (hk : k < (pyRange a b).length) :
    (pyRange a b)[k] = a + k := by
  simp [pyRange]

theorem mem_pyRange {a b j : ℤ} : j ∈ pyRange a b ↔ a ≤ j ∧ j < b := by
  constructor
  · intro h
    obtain ⟨k, hk, rfl⟩ := List.mem_map.mp h
    have := List.mem_range.mp hk
    omega
  · intro ⟨h1, h2⟩
    refine List.mem_map.mpr ⟨(j - a).toNat, List.mem_range.mpr (by omega), by
      omega⟩

theorem pyRange_nodup (a b : ℤ) : (pyRange a b).Nodup := by
  refine List.Nodup.map ?_ (List.nodup_range _)
  intro x y h
  have h' : a + (x : ℤ) = a + (y : ℤ) := h
  omega

theorem sum_map_mul_const {α : Type} (l : List α) (f : α → ℚ) (cst : ℚ) :
    (l.map (fun a => f a * cst)).sum = (l.map f).sum * cst := by
  induction l with
  | nil => simp
  | cons a l ih =>
    rw [List.map_cons, List.sum_cons, ih, List.map_cons, List.sum_cons]
    ring

/-- Matrix-vector product of a COO matrix over the index set `0..n-1`:
component `i` of `A v`. -/
def matVec (m : List (ℤ × ℤ × ℚ)) (n : ℤ) (v : ℤ → ℚ) (i : ℤ) : ℚ :=
  ((pyRange 0 n).map (fun j => cooEntry m i j * v j)).sum

/-- A COO dot-product against row `i` collapses to the row's stored entries
when every column index of that row lies in `[0, n)`. -/
theorem matVec_eq (m : List (ℤ × ℤ × ℚ)) (n : ℤ) (v : ℤ → ℚ) (i : ℤ)
    (h : ∀ t ∈ m, t.1 = i → 0 ≤ t.2.1 ∧ t.2.1 < n) :
    matVec m n v i =
      (m.map (fun t => if t.1 = i then t.2.2 * v t.2.1 else 0)).sum := by
  induction m with
  | nil =>
    rw [matVec]
    refine List.sum_eq_zero ?_
    intro x hx
    obtain ⟨j, _, rfl⟩ := List.mem_map.mp hx
    rw [cooEntry_nil, zero_mul]
  | cons t m ih =>
    have hm : ∀ t' ∈ m, t'.1 = i → 0 ≤ t'.2.1 ∧ t'.2.1 < n :=
      fun t' ht' => h t' (List.mem_cons_of_mem t ht')
    have hsplit : matVec (t :: m) n v i =
        ((pyRange 0 n).map
          (fun j => (if t.1 = i ∧ t.2.1 = j then t.2.2 else 0) * v j)).sum +
          matVec m n v i := by
      rw [matVec, matVec, ← sum_map_add_list]
      refine congrArg List.sum (List.map_congr_left ?_)
      intro j _
      rw [cooEntry_cons]
      ring
    rw [hsplit, ih hm, List.map_cons, List.sum_cons]
    congr 1
    by_cases hti : t.1 = i
    · rw [if_pos hti]
      have hmem : t.2.1 ∈ pyRange 0 n :=
        mem_pyRange.mpr (h t (List.mem_cons_self t m) hti)
      have hstep : ((pyRange 0 n).map
          (fun j => (if t.1 = i ∧ t.2.1 = j then t.2.2 else 0) * v j)).sum =
          ((pyRange 0 n).map
            (fun j => if t.2.1 = j then t.2.2 * v j else 0)).sum := by
        refine congrArg List.sum (List.map_congr_left ?_)
        intro j _
        by_cases hcj : t.2.1 = j
        · rw [if_pos ⟨hti, hcj⟩, if_pos hcj]
        · rw [if_neg (fun hand => hcj hand.2), if_neg hcj, zero_mul]
      rw [hstep, sum_ite_single (pyRange_nodup 0 n) hmem]
    · rw [if_neg hti]
      refine List.sum_eq_zero ?_
      intro x hx
      obtain ⟨j, _, rfl⟩ := List.mem_map.mp hx
      rw [if_neg (fun hand => hti hand.1), zero_mul]

/-- Applying a COO matrix to a constant vector multiplies each row's total
entry sum by the constant. -/
theorem matVec_const (m : List (ℤ × ℤ × ℚ)) (n : ℤ) (i : ℤ) (cst : ℚ)
    (h : ∀ t ∈ m, t.1 = i → 0 ≤ t.2.1 ∧ t.2.1 < n) :
    matVec m n (fun _ => cst) i = cooRowSum m i * cst := by
  rw [matVec_eq m n _ i h, cooRowSum, ← sum_map_mul_const]
  refine congrArg List.sum (List.map_congr_left ?_)
  intro t _
  by_cases hti : t.1 = i
  · rw [if_pos hti, if_pos hti]
  · rw [if_neg hti, if_neg hti, zero_mul]

/-! ### The 1-D first-derivative operator builders -/

/-- One loop iteration of `first_deriv_matrix`: for grid point `i`, the row
indices `p*[i]`, the column indices `cols`, and the coefficients
`fd.fd_coeff(1, x[i], nodes)` appended to `I`, `J`, `data`.  Fails when the
index access or the coefficient computation fails. -/
def fdRow (x : List ℚ) (p : ℕ) (i : ℤ) (cols : List ℤ) (nodes : List ℚ) :
    Option (List ℤ × List ℤ × List ℚ) := do
  let xi ← pyGet x i
  let c ← fd_coeff 1 xi nodes
  pure (List.replicate p i, cols, c)

/-- `first_deriv_matrix(x, w)` from
`1d_advection/02 Absolute Stability Examples.ipynb`:

```python
def first_deriv_matrix(x, w):
    I, J, data = [], [], []
    n = len(x)
    # bias to the right until we can center
    p = (2*w+1)
    for i in range(w):
        I.extend(p*[i]); J.extend(range(p))
        data.extend(fd.fd_coeff(1, x[i], x[:p]))
    # now fill in centered differences
    for i in range(w, n-w-1):
        I.extend(p*[i]); J.extend(range(i-w, i+w+1))
        data.extend(fd.fd_coeff(1, x[i], x[i-w:i+w+1]))
    # bias to the left when we can't center anymore
    for i in range(n-w-1, n):
        I.extend(p*[i]); J.extend(range(n-p, n))
        data.extend(fd.fd_coeff(1, x[i], x[n-p:]))
    return sp.csr_matrix((data, (I, J)))
```

The three loops are sequenced with `optMap` (a raise anywhere aborts the
call), and the final constructor receives the concatenated `data`, `I`, `J`
lists exactly as the Python code builds them. -/
def first_deriv_matrix (x : List ℚ) (w : ℕ) : Option (List (ℤ × ℤ × ℚ)) :=
  let n : ℤ := x.length
  let p : ℕ := 2 * w + 1
  do
    let right ← optMap
      (fun i => fdRow x p i (pyRange 0 p) (pySlice x 0 p)) (pyRange 0 w)
    let center ← optMap
      (fun i => fdRow x p i (pyRange (i - w) (i + w + 1))
        (pySlice x (i - w) (i + w + 1))) (pyRange w (n - w - 1))
    let left ← optMap
      (fun i => fdRow x p i (pyRange (n - p) n) (pySlice x (n - p) n))
      (pyRange (n - w - 1) n)
    let blocks := right ++ center ++ left
    cooCtor ((blocks.map (fun b => b.2.2)).flatten)
      ((blocks.map (fun b => b.1)).flatten)
      ((blocks.map (fun b => b.2.1)).flatten)

/-- `first_deriv_matrix_per(n, dx, w)` from
`1d_advection/04 The Need for High-Order Methods.ipynb`:

```python
def first_deriv_matrix_per(n, dx, w):
    I, J, data = [], [], []
    p = (2*w+1)
    c = fd.fd_coeff(1, 0, dx*np.arange(-w, w+1))
    for i in range(n):
        I.extend(p*[i])
        J.extend([(i+k)%n for k in range(-w, w+1)])
        data.extend(c)
    return sp.csc_matrix((data, (I, J)))
```

One centered coefficient vector is computed once and reused for every row,
with the column indices wrapped modulo `n`. -/
def first_deriv_matrix_per (n : ℕ) (dx : ℚ) (w : ℕ) :
    Option (List (ℤ × ℤ × ℚ)) :=
  let p : ℕ := 2 * w + 1
  do
    let c ← fd_coeff 1 0
      (List.map (fun k : ℤ => dx * (k : ℚ))
        (pyRange (-(w : ℤ)) ((w : ℤ) + 1)))
    let blocks := (pyRange 0 (n : ℤ)).map (fun i =>
      (List.replicate p i,
       List.map (fun k : ℤ => (i + k) % (n : ℤ))
         (pyRange (-(w : ℤ)) ((w : ℤ) + 1)),
       c))
    cooCtor ((blocks.map (fun b => b.2.2)).flatten)
      ((blocks.map (fun b => b.1)).flatten)
      ((blocks.map (fun b => b.2.1)).flatten)

/-! ### The 2-D Poisson assembly -/

/-- The per-point row contribution of the Poisson assembly loop in
`2d_elliptic_fd/Basics.ipynb`: a boundary point contributes the single
diagonal coefficient `1`; an interior point contributes the 5-point stencil
`[1/dy**2, 1/dx**2, -2/dx**2 - 2/dy**2, 1/dx**2, 1/dy**2]` at columns
`[k-n_x, k-1, k, k+1, k+n_x]`, where `k = i*n_x + j`. -/
def poissonPointRow (n_x n_y : ℕ) (dx dy : ℚ) (i j : ℕ) :
    List ℤ × List ℤ × List ℚ :=
  let k : ℤ := (i : ℤ) * n_x + j
  if i = 0 ∨ i = n_y - 1 ∨ j = 0 ∨ j = n_x - 1 then
    ([k], [k], [1])
  else
    ([k, k, k, k, k],
     [k - n_x, k - 1, k, k + 1, k + n_x],
     [1 / dy ^ 2, 1 / dx ^ 2, -2 / dx ^ 2 - 2 / dy ^ 2, 1 / dx ^ 2,
      1 / dy ^ 2])

/-- The 2-D Poisson assembly of `2d_elliptic_fd/Basics.ipynb`:

```python
for i in range(n_y):
    yi = y[i]
    for j in range(n_x):
        xj = x[j]
        k = i*n_x + j
        if i == 0 or i == n_y-1 or j == 0 or j == n_x-1:
            I.append(k); J.append(k); data.append(1)
            b[k] = sol(xj, yi)
        else:
            I.extend([k, k, k, k, k])
            J.extend([k-n_x, k-1, k, k+1, k+n_x])
            data.extend([1/dy**2, 1/dx**2, -2/dx**2 -2/dy**2, 1/dx**2, 1/dy**2])
            b[k] = f(xj, yi)
A = sp.csr_matrix((data, (I,J)), (n_unk, n_unk))
```

with `x = np.linspace(x_l, x_u, n_x)`, `y = np.linspace(y_l, y_u, n_y)`,
`dx = (x_u-x_l)/(n_x-1)`, `dy = (y_u-y_l)/(n_y-1)`.  The notebook
instantiates `sol` and `f` with specific transcendental functions built from
the external math library; the assembly itself only evaluates them at grid
points, so they are parameters here.  Returns the assembled matrix (the
constructor is passed the explicit `(n_unk, n_unk)` shape) and the
right-hand-side vector `b` built from `np.zeros(n_unk)` by the loop's
assignments. -/
def poissonSystem (x_l x_u y_l y_u : ℚ) (n_x n_y : ℕ)
    (sol f : ℚ → ℚ → ℚ) : Option (List (ℤ × ℤ × ℚ)) × (ℤ → ℚ) :=
  let dx := (x_u - x_l) / ((n_x : ℚ) - 1)
  let dy := (y_u - y_l) / ((n_y : ℚ) - 1)
  let x : ℕ → ℚ := fun j => x_l + j * dx
  let y : ℕ → ℚ := fun i => y_l + i * dy
  let pairs := (List.range n_y).flatMap
    (fun i => (List.range n_x).map (fun j => (i, j)))
  let rows := pairs.map (fun ij => poissonPointRow n_x n_y dx dy ij.1 ij.2)
  let b : ℤ → ℚ := pairs.foldl (fun bacc ij =>
    Function.update bacc ((ij.1 : ℤ) * n_x + ij.2)
      (if ij.1 = 0 ∨ ij.1 = n_y - 1 ∨ ij.2 = 0 ∨ ij.2 = n_x - 1 then
        sol (x ij.2) (y ij.1)
      else f (x ij.2) (y ij.1))) (fun _ => 0)
  (cooCtorShape ((n_x : ℤ) * n_y) ((rows.map (fun r => r.2.2)).flatten)
      ((rows.map (fun r => r.1)).flatten)
      ((rows.map (fun r => r.2.1)).flatten),
   b)

/-! ### Assembly helper lemmas -/

theorem length_pySlice (x : List ℚ) (a b : ℤ) :
    (pySlice x a b).length =
      pyClamp x.length b - pyClamp x.length a := by
  rw [pySlice, List.length_drop, List.length_take]
  have : pyClamp x.length b ≤ x.length := by
    rw [pyClamp]
    split <;> omega
  omega

theorem pyClamp_of_nonneg_le {n : ℕ} {a : ℤ} (h0 : 0 ≤ a) (hn : a ≤ n) :
    pyClamp n a = a.toNat := by
  rw [pyClamp, if_neg (by omega)]
  omega

theorem pySlice_sublist (x : List ℚ) (a b : ℤ) :
    (pySlice x a b).Sublist x :=
  List.Sublist.trans (List.drop_sublist _ _) (List.take_sublist _ _)

theorem pySlice_nodup {x : List ℚ} (hx : x.Nodup) (a b : ℤ) :
    (pySlice x a b).Nodup :=
  List.Nodup.sublist (pySlice_sublist x a b) hx

theorem getElem_pySlice {x : List ℚ} {a b : ℤ} (h0 : 0 ≤ a) (hab : a ≤ b)
    (hb : b ≤ x.length) {t : ℕ} (ht : t < (pySlice x a b).length) :
    (pySlice x a b)[t] = x.getD (a.toNat + t) 0 := by
  have hidx : a.toNat + t < x.length := by
    rw [length_pySlice, pyClamp_of_nonneg_le h0 (by omega),
      pyClamp_of_nonneg_le (by omega) hb] at ht
    omega
  rw [List.getD_eq_getElem _ _ hidx]
  simp only [pySlice, List.getElem_drop, List.getElem_take]
  congr 1
  rw [pyClamp_of_nonneg_le h0 (by omega)]

theorem length_pySlice_of_bounds {x : List ℚ} {a b : ℤ} (h0 : 0 ≤ a)
    (hab : a ≤ b) (hb : b ≤ x.length) :
    (pySlice x a b).length = (b - a).toNat := by
  rw [length_pySlice, pyClamp_of_nonneg_le h0 (by omega),
    pyClamp_of_nonneg_le (by omega) hb]
  omega

theorem zip_flatten_blocks (bs : List (List ℤ × List ℤ × List ℚ))
    (h : ∀ b ∈ bs, b.1.length = b.2.1.length ∧ b.2.1.length = b.2.2.length) :
    ((bs.map (fun b => b.1)).flatten).zip
        (((bs.map (fun b => b.2.1)).flatten).zip
          ((bs.map (fun b => b.2.2)).flatten)) =
      (bs.map (fun b => b.1.zip (b.2.1.zip b.2.2))).flatten := by
  induction bs with
  | nil => rfl
  | cons b bs ih =>
    have hb := h b (List.mem_cons_self b bs)
    have hbs := fun b' hb' => h b' (List.mem_cons_of_mem b hb')
    simp only [List.map_cons, List.flatten_cons]
    rw [List.zip_append hb.2,
      List.zip_append (by rw [List.length_zip]; omega), ih hbs]

theorem cooEntry_flatten (Ls : List (List (ℤ × ℤ × ℚ))) (r c : ℤ) :
    cooEntry Ls.flatten r c = (Ls.map (fun L => cooEntry L r c)).sum := by
  induction Ls with
  | nil => rfl
  | cons L Ls ih =>
    rw [List.flatten_cons, cooEntry_append, ih, List.map_cons, List.sum_cons]

theorem cooRowSum_flatten (Ls : List (List (ℤ × ℤ × ℚ))) (r : ℤ) :
    cooRowSum Ls.flatten r = (Ls.map (fun L => cooRowSum L r)).sum := by
  induction Ls with
  | nil => rfl
  | cons L Ls ih =>
    rw [List.flatten_cons, cooRowSum_append, ih, List.map_cons, List.sum_cons]

theorem sum_map_single {α : Type} {l : List α} (hnd : l.Nodup) {c : α}
    (hc : c ∈ l) (f : α → ℚ) (h : ∀ j ∈ l, j ≠ c → f j = 0) :
    (l.map f).sum = f c := by
  induction l with
  | nil => cases hc
  | cons a l ih =>
    rw [List.map_cons, List.sum_cons]
    rcases List.mem_cons.mp hc with hca | hmem
    · subst hca
      rw [List.sum_eq_zero (by
        intro y hy
        obtain ⟨j, hj, rfl⟩ := List.mem_map.mp hy
        exact h j (List.mem_cons_of_mem c hj)
          (fun hEq => (List.nodup_cons.mp hnd).1 (hEq ▸ hj))), add_zero]
    · rw [h a (List.mem_cons_self a l)
        (fun hEq => (List.nodup_cons.mp hnd).1 (hEq ▸ hmem)),
        ih (List.nodup_cons.mp hnd).2 hmem
          (fun j hj => h j (List.mem_cons_of_mem a hj)), zero_add]

theorem sum_map_lt_of_ne_nil {α : Type} {l : List α} (hne : l ≠ [])
    (f g : α → ℕ) (h : ∀ b ∈ l, f b < g b) :
    (l.map f).sum < (l.map g).sum := by
  induction l with
  | nil => exact absurd rfl hne
  | cons a l ih =>
    rw [List.map_cons, List.sum_cons, List.map_cons, List.sum_cons]
    cases l with
    | nil =>
      simpa using h a (List.mem_cons_self a [])
    | cons b l' =>
      have hlt := ih (by simp)
        (fun t ht => h t (List.mem_cons_of_mem a ht))
      have := h a (List.mem_cons_self a (b :: l'))
      omega

theorem sum_range_getD (l : List ℚ) :
    ∑ i ∈ Finset.range l.length, l.getD i 0 = l.sum := by
  rw [← sum_map_range]
  congr 1
  refine List.ext_getElem (by simp) ?_
  intro t h1 h2
  rw [List.getElem_map, List.getElem_range,
    List.getD_eq_getElem l 0 (by simpa using h1)]

/-! ### Characterization of the periodic operator -/

/-- The node offsets `dx*np.arange(-w, w+1)` used by
`first_deriv_matrix_per`. -/
def perNodes (dx : ℚ) (w : ℕ) : List ℚ :=
  List.map (fun k : ℤ => dx * (k : ℚ)) (pyRange (-(w : ℤ)) ((w : ℤ) + 1))

/-- The single centered coefficient vector computed by
`first_deriv_matrix_per` and reused in every row. -/
def perCoeff (dx : ℚ) (w : ℕ) : List ℚ :=
  (fd_coeff 1 0 (perNodes dx w)).getD []

/-- The wrapped column indices of row `i` of `first_deriv_matrix_per`. -/
def perCols (n w : ℕ) (i : ℤ) : List ℤ :=
  List.map (fun k : ℤ => (i + k) % (n : ℤ))
    (pyRange (-(w : ℤ)) ((w : ℤ) + 1))

/-- The triples assembled by `first_deriv_matrix_per` when the coefficient
computation succeeds. -/
def perTriples (n : ℕ) (dx : ℚ) (w : ℕ) : List (ℤ × ℤ × ℚ) :=
  ((pyRange 0 (n : ℤ)).map (fun i =>
    (List.replicate (2 * w + 1) i).zip
      ((perCols n w i).zip (perCoeff dx w)))).flatten

theorem length_perNodes (dx : ℚ) (w : ℕ) :
    (perNodes dx w).length = 2 * w + 1 := by
  rw [perNodes, List.length_map, length_pyRange]
  omega

theorem perNodes_nodup {dx : ℚ} (hdx : dx ≠ 0) (w : ℕ) :
    (perNodes dx w).Nodup := by
  refine List.Nodup.map ?_ (pyRange_nodup _ _)
  intro a b h
  have := mul_left_cancel₀ hdx h
  exact_mod_cast this

theorem fd_coeff_perNodes {dx : ℚ} (hdx : dx ≠ 0) {w : ℕ} (hw : 1 ≤ w) :
    fd_coeff 1 0 (perNodes dx w) = some (perCoeff dx w) := by
  rw [perCoeff, fd_coeff_eq_some
    ⟨by rw [length_perNodes]; omega, perNodes_nodup hdx w⟩]
  rfl

theorem length_perCoeff {dx : ℚ} (hdx : dx ≠ 0) {w : ℕ} (hw : 1 ≤ w) :
    (perCoeff dx w).length = 2 * w + 1 := by
  rw [fd_coeff_length (fd_coeff_perNodes hdx hw), length_perNodes]

theorem length_perCols (n w : ℕ) (i : ℤ) :
    (perCols n w i).length = 2 * w + 1 := by
  rw [perCols, List.length_map, length_pyRange]
  omega

theorem perCols_mem_bounds {n w : ℕ} (hn : 1 ≤ n) {i c : ℤ}
    (hc : c ∈ perCols n w i) : 0 ≤ c ∧ c < n := by
  have hn0 : ((n : ℤ)) ≠ 0 := by exact_mod_cast (by omega : n ≠ 0)
  obtain ⟨k, _, rfl⟩ := List.mem_map.mp hc
  exact ⟨Int.emod_nonneg _ hn0,
    Int.emod_lt_of_pos _ (by exact_mod_cast hn)⟩

theorem length_flatten_map {α β : Type} (l : List α) (f : α → List β)
    (m : ℕ) (h : ∀ a ∈ l, (f a).length = m) :
    ((l.map f).flatten).length = l.length * m := by
  rw [List.length_flatten, List.map_map]
  have hc : List.map (List.length ∘ f) l = List.map (fun _ => m) l :=
    List.map_congr_left (fun a ha => h a ha)
  rw [hc, List.map_const', List.sum_replicate, smul_eq_mul]

theorem mem_flatten_map {α β : Type} {l : List α} {f : α → List β} {b : β}
    (hb : b ∈ (l.map f).flatten) : ∃ a ∈ l, b ∈ f a := by
  rw [List.mem_flatten] at hb
  obtain ⟨L, hL, hbL⟩ := hb
  obtain ⟨a, ha, rfl⟩ := List.mem_map.mp hL
  exact ⟨a, ha, hbL⟩

theorem cooCtor_pos {data : List ℚ} {rI cJ : List ℤ}
    (h : data.length = rI.length ∧ cJ.length = rI.length ∧
      (∀ i ∈ rI, 0 ≤ i) ∧ (∀ j ∈ cJ, 0 ≤ j) ∧ rI ≠ []) :
    cooCtor data rI cJ = some (rI.zip (cJ.zip data)) := by
  unfold cooCtor
  rw [if_pos h]

theorem cooCtorShape_pos {m : ℤ} {data : List ℚ} {rI cJ : List ℤ}
    (h : data.length = rI.length ∧ cJ.length = rI.length ∧
      (∀ i ∈ rI, 0 ≤ i ∧ i < m) ∧ (∀ j ∈ cJ, 0 ≤ j ∧ j < m)) :
    cooCtorShape m data rI cJ = some (rI.zip (cJ.zip data)) := by
  unfold cooCtorShape
  rw [if_pos h]

/-- One row's contribution `(p*[i], J-part, data-part)` inside
`first_deriv_matrix_per`. -/
def perBlock (n : ℕ) (dx : ℚ) (w : ℕ) (i : ℤ) :
    List ℤ × List ℤ × List ℚ :=
  (List.replicate (2 * w + 1) i, perCols n w i, perCoeff dx w)

theorem first_deriv_matrix_per_eq {n w : ℕ} {dx : ℚ} (hdx : dx ≠ 0)
    (hw : 1 ≤ w) (hn : 1 ≤ n) :
    first_deriv_matrix_per n dx w = some (perTriples n dx w) := by
  have hn0 : ((n : ℤ)) ≠ 0 := by exact_mod_cast (by omega : n ≠ 0)
  rw [first_deriv_matrix_per]
  show (fd_coeff 1 0 (perNodes dx w)).bind _ = _
  rw [fd_coeff_perNodes hdx hw, Option.some_bind]
  show cooCtor
      ((((pyRange 0 (n : ℤ)).map (perBlock n dx w)).map
        (fun b => b.2.2)).flatten)
      ((((pyRange 0 (n : ℤ)).map (perBlock n dx w)).map
        (fun b => b.1)).flatten)
      ((((pyRange 0 (n : ℤ)).map (perBlock n dx w)).map
        (fun b => b.2.1)).flatten)
      = some (perTriples n dx w)
  have hmem : ∀ b ∈ (pyRange 0 (n : ℤ)).map (perBlock n dx w),
      ∃ i ∈ pyRange 0 (n : ℤ), b = perBlock n dx w i := by
    intro b hb
    obtain ⟨i, hi, rfl⟩ := List.mem_map.mp hb
    exact ⟨i, hi, rfl⟩
  have hlen1 : ∀ b ∈ (pyRange 0 (n : ℤ)).map (perBlock n dx w),
      (b.1).length = 2 * w + 1 := by
    intro b hb
    obtain ⟨i, _, rfl⟩ := hmem b hb
    exact List.length_replicate _ _
  have hlen2 : ∀ b ∈ (pyRange 0 (n : ℤ)).map (perBlock n dx w),
      (b.2.1).length = 2 * w + 1 := by
    intro b hb
    obtain ⟨i, _, rfl⟩ := hmem b hb
    exact length_perCols n w i
  have hlen3 : ∀ b ∈ (pyRange 0 (n : ℤ)).map (perBlock n dx w),
      (b.2.2).length = 2 * w + 1 := by
    intro b hb
    obtain ⟨i, _, rfl⟩ := hmem b hb
    exact length_perCoeff hdx hw
  rw [cooCtor_pos ⟨?_, ?_, ?_, ?_, ?_⟩]
  · rw [zip_flatten_blocks _ (by
      intro b hb
      rw [hlen1 b hb, hlen2 b hb, hlen3 b hb]
      exact ⟨rfl, rfl⟩), List.map_map, perTriples]
    refine congrArg (fun z => some z)
      (congrArg List.flatten (List.map_congr_left ?_))
    intro i _
    rfl
  · exact (length_flatten_map _ _ (2 * w + 1) hlen3).trans
      (length_flatten_map _ _ (2 * w + 1) hlen1).symm
  · exact (length_flatten_map _ _ (2 * w + 1) hlen2).trans
      (length_flatten_map _ _ (2 * w + 1) hlen1).symm
  · intro r hr
    obtain ⟨b, hb, hrb⟩ := mem_flatten_map hr
    obtain ⟨i, hi, rfl⟩ := hmem b hb
    have : r = i := List.eq_of_mem_replicate hrb
    subst this
    exact (mem_pyRange.mp hi).1
  · intro c hc
    obtain ⟨b, hb, hcb⟩ := mem_flatten_map hc
    obtain ⟨i, _, rfl⟩ := hmem b hb
    exact (perCols_mem_bounds hn hcb).1
  · refine List.ne_nil_of_length_pos ?_
    rw [length_flatten_map _ _ (2 * w + 1) hlen1, List.length_map,
      length_pyRange]
    have he : (((n : ℤ)) - 0).toNat = n := by omega
    rw [he]
    positivity

theorem perTriples_mem {n : ℕ} {dx : ℚ} {w : ℕ} {t : ℤ × ℤ × ℚ}
    (ht : t ∈ perTriples n dx w) :
    t.1 ∈ pyRange 0 (n : ℤ) ∧ t.2.1 ∈ perCols n w t.1 := by
  rw [perTriples] at ht
  obtain ⟨i, hi, hti⟩ := mem_flatten_map ht
  have h1 := rowZip_fst hti
  have h2 := rowZip_snd hti
  rw [h1]
  exact ⟨hi, h2⟩

theorem perTriples_entry {n w : ℕ} {dx : ℚ} {i : ℤ}
    (hi : 0 ≤ i ∧ i < (n : ℤ)) (c : ℤ) :
    cooEntry (perTriples n dx w) i c =
      (((perCols n w i).zip (perCoeff dx w)).map
        (fun cv => if cv.1 = c then cv.2 else 0)).sum := by
  rw [perTriples, cooEntry_flatten, List.map_map]
  rw [sum_map_single (pyRange_nodup 0 (n : ℤ)) (mem_pyRange.mpr hi) _ (by
    intro j _ hji
    refine cooEntry_of_ne_row ?_ c
    intro t ht
    rw [rowZip_fst ht]
    exact hji)]
  show cooEntry ((List.replicate (2 * w + 1) i).zip
    ((perCols n w i).zip (perCoeff dx w))) i c = _
  rw [show (2 * w + 1) = (perCols n w i).length from
    (length_perCols n w i).symm, cooEntry_rowZip]

theorem perTriples_rowSum {n w : ℕ} {dx : ℚ} (hdx : dx ≠ 0) (hw : 1 ≤ w)
    {i : ℤ} (hi : 0 ≤ i ∧ i < (n : ℤ)) :
    cooRowSum (perTriples n dx w) i = (perCoeff dx w).sum := by
  rw [perTriples, cooRowSum_flatten, List.map_map]
  rw [sum_map_single (pyRange_nodup 0 (n : ℤ)) (mem_pyRange.mpr hi) _ (by
    intro j _ hji
    refine cooRowSum_of_ne_row ?_
    intro t ht
    rw [rowZip_fst ht]
    exact hji)]
  show cooRowSum ((List.replicate (2 * w + 1) i).zip
    ((perCols n w i).zip (perCoeff dx w))) i = _
  rw [show (2 * w + 1) = (perCols n w i).length from
    (length_perCols n w i).symm, cooRowSum_rowZip]
  rw [length_perCols, length_perCoeff hdx hw]

theorem perCoeff_sum_zero {dx : ℚ} (hdx : dx ≠ 0) {w : ℕ} (hw : 1 ≤ w) :
    (perCoeff dx w).sum = 0 := by
  have hv := fd_coeff_vandermonde (d := 1) (perNodes_nodup hdx w)
    (fd_coeff_perNodes hdx hw) (j := 0)
    (by rw [length_perNodes]; omega)
  simp only [pow_zero, mul_one] at hv
  rw [if_neg (by omega)] at hv
  rw [← sum_range_getD, length_perCoeff hdx hw]
  rw [length_perNodes] at hv
  exact hv

theorem rowZip_contrib (i : ℤ) (cols : List ℤ) (vals : List ℚ)
    (v : ℤ → ℚ) :
    (((List.replicate cols.length i).zip (cols.zip vals)).map
      (fun t => if t.1 = i then t.2.2 * v t.2.1 else 0)).sum =
      ((cols.zip vals).map (fun cv => cv.2 * v cv.1)).sum := by
  induction cols generalizing vals with
  | nil => rfl
  | cons c0 cols ih =>
    cases vals with
    | nil => rfl
    | cons v0 vals =>
      rw [List.length_cons, List.replicate_succ, List.zip_cons_cons,
        List.zip_cons_cons, List.map_cons, List.sum_cons, List.map_cons,
        List.sum_cons, ih vals, if_pos rfl]

theorem perTriples_matVec {n w : ℕ} {dx : ℚ} (hn : 1 ≤ n) (v : ℤ → ℚ)
    {i : ℤ} (hi : 0 ≤ i ∧ i < (n : ℤ)) :
    matVec (perTriples n dx w) (n : ℤ) v i =
      (((pyRange (-(w : ℤ)) ((w : ℤ) + 1)).zip (perCoeff dx w)).map
        (fun kc => kc.2 * v ((i + kc.1) % (n : ℤ)))).sum := by
  rw [matVec_eq _ _ _ _ (by
    intro t ht _
    exact perCols_mem_bounds hn (perTriples_mem ht).2)]
  rw [perTriples, List.map_flatten, List.sum_flatten, List.map_map,
    List.map_map]
  rw [sum_map_single (pyRange_nodup 0 (n : ℤ)) (mem_pyRange.mpr hi) _ (by
    intro j _ hji
    refine List.sum_eq_zero ?_
    intro y hy
    obtain ⟨t, ht, rfl⟩ := List.mem_map.mp hy
    rw [if_neg (by
      rw [rowZip_fst ht]
      exact hji)])]
  show (((List.replicate (2 * w + 1) i).zip
      ((perCols n w i).zip (perCoeff dx w))).map
      (fun t => if t.1 = i then t.2.2 * v t.2.1 else 0)).sum = _
  rw [show (2 * w + 1) = (perCols n w i).length from
    (length_perCols n w i).symm, rowZip_contrib, perCols,
    List.zip_map_left, List.map_map]
  refine congrArg List.sum (List.map_congr_left ?_)
  intro kc _
  rfl

theorem perCols_nodup {n w : ℕ} (hn : 2 * w + 1 ≤ n) (i : ℤ) :
    (perCols n w i).Nodup := by
  rw [perCols]
  refine List.Nodup.map_on ?_ (pyRange_nodup _ _)
  intro k1 hk1 k2 hk2 hEq
  have hb1 := mem_pyRange.mp hk1
  have hb2 := mem_pyRange.mp hk2
  have hnn : (2 * w + 1 : ℤ) ≤ (n : ℤ) := by exact_mod_cast hn
  rcases le_total k2 k1 with hle | hle
  · have h0 := Int.emod_eq_emod_iff_emod_sub_eq_zero.mp hEq
    rw [show (i + k1) - (i + k2) = k1 - k2 from by ring] at h0
    have := Int.emod_eq_of_lt (by omega : (0 : ℤ) ≤ k1 - k2)
      (by omega : k1 - k2 < (n : ℤ))
    omega
  · have h0 := Int.emod_eq_emod_iff_emod_sub_eq_zero.mp hEq.symm
    rw [show (i + k2) - (i + k1) = k2 - k1 from by ring] at h0
    have := Int.emod_eq_of_lt (by omega : (0 : ℤ) ≤ k2 - k1)
      (by omega : k2 - k1 < (n : ℤ))
    omega

theorem perCols_not_nodup {n w : ℕ} (hn : 1 ≤ n) (hlt : n < 2 * w + 1)
    (i : ℤ) : ¬(perCols n w i).Nodup := by
  intro hnd
  have hlen := length_perCols n w i
  have hsub : (perCols n w i).toFinset ⊆ Finset.Ico (0 : ℤ) n := by
    intro c hc
    rw [List.mem_toFinset] at hc
    rw [Finset.mem_Ico]
    exact ⟨(perCols_mem_bounds hn hc).1, (perCols_mem_bounds hn hc).2⟩
  have hcard := Finset.card_le_card hsub
  rw [List.toFinset_card_of_nodup hnd, hlen, Int.card_Ico] at hcard
  omega

theorem perCols_getD {n w : ℕ} (i : ℤ) {t : ℕ} (ht : t < 2 * w + 1) :
    (perCols n w i).getD t 0 = (i + (-(w : ℤ) + t)) % (n : ℤ) := by
  unfold perCols
  rw [List.getD_eq_getElem _ _ (by
    rw [List.length_map, length_pyRange]
    omega), List.getElem_map, getElem_pyRange]

theorem rowZip_getD_mem {i : ℤ} : ∀ (p : ℕ) (cols : List ℤ)
    (vals : List ℚ) (t : ℕ), cols.length = p → vals.length = p → t < p →
    (i, cols.getD t 0, vals.getD t 0) ∈
      (List.replicate p i).zip (cols.zip vals) := by
  intro p
  induction p with
  | zero =>
    intro cols vals t _ _ ht
    exact absurd ht (by omega)
  | succ p ih =>
    intro cols vals t hc hv ht
    cases cols with
    | nil => exact absurd hc (by simp)
    | cons c0 cols =>
      cases vals with
      | nil => exact absurd hv (by simp)
      | cons v0 vals =>
        rw [List.replicate_succ, List.zip_cons_cons, List.zip_cons_cons]
        cases t with
        | zero =>
          rw [List.getD_cons_zero, List.getD_cons_zero]
          exact List.mem_cons_self _ _
        | succ t =>
          rw [List.getD_cons_succ, List.getD_cons_succ]
          exact List.mem_cons_of_mem _ (ih cols vals t (by simpa using hc)
            (by simpa using hv) (by omega))

theorem perTriples_entry_wrapped {n w : ℕ} {dx : ℚ} (hdx : dx ≠ 0)
    (hw : 1 ≤ w) (hn : 2 * w + 1 ≤ n) {i : ℤ} (hi : 0 ≤ i ∧ i < (n : ℤ))
    {k : ℤ} (hk : -(w : ℤ) ≤ k ∧ k ≤ (w : ℤ)) :
    cooEntry (perTriples n dx w) i ((i + k) % (n : ℤ)) =
      (perCoeff dx w).getD (k + w).toNat 0 := by
  rw [perTriples_entry hi]
  have ht : (k + (w : ℤ)).toNat < (perCols n w i).length := by
    rw [length_perCols]
    omega
  have hcol : (perCols n w i).getD (k + (w : ℤ)).toNat 0 =
      (i + k) % (n : ℤ) := by
    rw [perCols_getD i (by omega : (k + (w : ℤ)).toNat < 2 * w + 1)]
    congr 1
    omega
  rw [← hcol, zipSum_getD (perCols_nodup hn i)
    (by rw [length_perCoeff hdx hw, length_perCols]) ht]

theorem perTriples_entry_off {n w : ℕ} {dx : ℚ} {i : ℤ}
    (hi : 0 ≤ i ∧ i < (n : ℤ)) {c : ℤ} (hc : c ∉ perCols n w i) :
    cooEntry (perTriples n dx w) i c = 0 := by
  rw [perTriples_entry hi]
  exact zipSum_of_not_mem _ hc

theorem perTriples_circulant {n w : ℕ} {dx : ℚ} (hn : 1 ≤ n) {i j : ℤ}
    (hi : 0 ≤ i ∧ i < (n : ℤ)) (hj : 0 ≤ j ∧ j < (n : ℤ)) :
    cooEntry (perTriples n dx w) ((i + 1) % (n : ℤ)) ((j + 1) % (n : ℤ)) =
      cooEntry (perTriples n dx w) i j := by
  have hn0 : ((n : ℤ)) ≠ 0 := by exact_mod_cast (by omega : n ≠ 0)
  have hi' : 0 ≤ (i + 1) % (n : ℤ) ∧ (i + 1) % (n : ℤ) < (n : ℤ) :=
    ⟨Int.emod_nonneg _ hn0, Int.emod_lt_of_pos _ (by omega)⟩
  rw [perTriples_entry hi', perTriples_entry hi, perCols, perCols,
    List.zip_map_left, List.zip_map_left, List.map_map, List.map_map]
  refine congrArg List.sum (List.map_congr_left ?_)
  intro kc _
  show (if ((i + 1) % (n : ℤ) + kc.1) % (n : ℤ) = (j + 1) % (n : ℤ)
    then kc.2 else 0) = (if (i + kc.1) % (n : ℤ) = j then kc.2 else 0)
  refine if_congr ?_ rfl rfl
  rw [Int.emod_add_emod]
  rw [show j = j % (n : ℤ) from (Int.emod_eq_of_lt hj.1 hj.2).symm]
  rw [Int.emod_eq_emod_iff_emod_sub_eq_zero,
    show (i + 1 + kc.1) - (j % (n : ℤ) + 1) = (i + kc.1) - j % (n : ℤ)
      from by ring,
    ← Int.emod_eq_emod_iff_emod_sub_eq_zero, Int.emod_emod_of_dvd _
      dvd_rfl]

theorem perTriples_shift {n w : ℕ} {dx : ℚ} (hn : 1 ≤ n) (v : ℤ → ℚ)
    {i : ℤ} (hi : 0 ≤ i ∧ i < (n : ℤ)) :
    matVec (perTriples n dx w) (n : ℤ) (fun j => v ((j + 1) % (n : ℤ))) i =
      matVec (perTriples n dx w) (n : ℤ) v ((i + 1) % (n : ℤ)) := by
  have hn0 : ((n : ℤ)) ≠ 0 := by exact_mod_cast (by omega : n ≠ 0)
  have hi' : 0 ≤ (i + 1) % (n : ℤ) ∧ (i + 1) % (n : ℤ) < (n : ℤ) :=
    ⟨Int.emod_nonneg _ hn0, Int.emod_lt_of_pos _ (by omega)⟩
  rw [perTriples_matVec hn _ hi, perTriples_matVec hn v hi']
  refine congrArg List.sum (List.map_congr_left ?_)
  intro kc _
  congr 1
  rw [Int.emod_add_emod, Int.emod_add_emod,
    show i + kc.1 + 1 = i + 1 + kc.1 from by ring]

theorem foldr_max_le {l : List ℤ} {m : ℤ} (hm : -1 ≤ m)
    (hub : ∀ a ∈ l, a ≤ m) : l.foldr max (-1) ≤ m := by
  induction l with
  | nil => exact hm
  | cons a l ih =>
    rw [List.foldr_cons]
    exact max_le (hub a (List.mem_cons_self a l))
      (ih (fun b hb => hub b (List.mem_cons_of_mem a hb)))

theorem le_foldr_max {l : List ℤ} {m : ℤ} (hmem : m ∈ l) :
    m ≤ l.foldr max (-1) := by
  induction l with
  | nil => cases hmem
  | cons a l ih =>
    rw [List.foldr_cons]
    rcases List.mem_cons.mp hmem with rfl | hmem'
    · exact le_max_left _ _
    · exact le_trans (ih hmem') (le_max_right _ _)

theorem foldr_max_eq {l : List ℤ} {m : ℤ} (hm : -1 ≤ m)
    (hub : ∀ a ∈ l, a ≤ m) (hmem : m ∈ l) : l.foldr max (-1) = m :=
  le_antisymm (foldr_max_le hm hub) (le_foldr_max hmem)

theorem perTriples_shape {n w : ℕ} {dx : ℚ} (hdx : dx ≠ 0) (hw : 1 ≤ w)
    (hn : 1 ≤ n) : cooShape (perTriples n dx w) = ((n : ℤ), (n : ℤ)) := by
  have hn0 : ((n : ℤ)) ≠ 0 := by exact_mod_cast (by omega : n ≠ 0)
  have hblock : ∀ i : ℤ, ((List.replicate (2 * w + 1) i).zip
      ((perCols n w i).zip (perCoeff dx w))).length = 2 * w + 1 := by
    intro i
    rw [List.length_zip, List.length_zip, List.length_replicate,
      length_perCols, length_perCoeff hdx hw]
    omega
  have hlast : ((n : ℤ) - 1) ∈ pyRange 0 (n : ℤ) :=
    mem_pyRange.mpr ⟨by omega, by omega⟩
  have hBmem : ∀ i ∈ pyRange 0 (n : ℤ),
      ∀ t ∈ (List.replicate (2 * w + 1) i).zip
        ((perCols n w i).zip (perCoeff dx w)), t ∈ perTriples n dx w := by
    intro i hi t ht
    rw [perTriples, List.mem_flatten]
    exact ⟨_, List.mem_map.mpr ⟨i, hi, rfl⟩, ht⟩
  rw [cooShape]
  have hfst : ((perTriples n dx w).map (fun t => t.1)).foldr max (-1) =
      (n : ℤ) - 1 := by
    refine foldr_max_eq (by omega) ?_ ?_
    · intro a ha
      obtain ⟨t, ht, rfl⟩ := List.mem_map.mp ha
      have := (mem_pyRange.mp (perTriples_mem ht).1).2
      omega
    · refine List.mem_map.mpr ?_
      refine ⟨((n : ℤ) - 1, (perCols n w ((n : ℤ) - 1)).getD 0 0,
        (perCoeff dx w).getD 0 0),
        hBmem _ hlast _ (rowZip_getD_mem (2 * w + 1) _ _ 0
          (length_perCols n w _) (length_perCoeff hdx hw) (by omega)),
        rfl⟩
  have hsnd : ((perTriples n dx w).map (fun t => t.2.1)).foldr max (-1) =
      (n : ℤ) - 1 := by
    refine foldr_max_eq (by omega) ?_ ?_
    · intro a ha
      obtain ⟨t, ht, rfl⟩ := List.mem_map.mp ha
      have := (perCols_mem_bounds hn (perTriples_mem ht).2).2
      omega
    · refine List.mem_map.mpr ?_
      refine ⟨((n : ℤ) - 1, (perCols n w ((n : ℤ) - 1)).getD w 0,
        (perCoeff dx w).getD w 0),
        hBmem _ hlast _ (rowZip_getD_mem (2 * w + 1) _ _ w
          (length_perCols n w _) (length_perCoeff hdx hw) (by omega)),
        ?_⟩
      show (perCols n w ((n : ℤ) - 1)).getD w 0 = (n : ℤ) - 1
      rw [perCols_getD ((n : ℤ) - 1) (by omega : w < 2 * w + 1)]
      rw [show ((n : ℤ) - 1) + (-(w : ℤ) + (w : ℕ)) = (n : ℤ) - 1 from by
        ring]
      exact Int.emod_eq_of_lt (by omega) (by omega)
  rw [hfst, hsnd]
  refine Prod.ext ?_ ?_
  · show (n : ℤ) - 1 + 1 = (n : ℤ)
    ring
  · show (n : ℤ) - 1 + 1 = (n : ℤ)
    ring

/-! ### Characterization of `first_deriv_matrix` -/

/-- The coefficient data `fd.fd_coeff(1, x[i], nodes)` appended for grid
point `i` in `first_deriv_matrix` (extracted from the `Option`; used under
hypotheses that guarantee success). -/
def stencilCoeff (x : List ℚ) (i : ℤ) (nodes : List ℚ) : List ℚ :=
  (fd_coeff 1 ((pyGet x i).getD 0) nodes).getD []

/-- The per-row `(I, J, data)` blocks of `first_deriv_matrix`, zipped into
triples: right-biased rows `0..w-1`, centered rows `w..n-w-2`, left-biased
rows `n-w-1..n-1`. -/
def fdmBlocks (x : List ℚ) (w : ℕ) : List (List (ℤ × ℤ × ℚ)) :=
  let n : ℤ := x.length
  let p : ℕ := 2 * w + 1
  (pyRange 0 (w : ℤ)).map (fun i =>
    (List.replicate p i).zip ((pyRange 0 (p : ℤ)).zip
      (stencilCoeff x i (pySlice x 0 (p : ℤ)))))
  ++ (pyRange (w : ℤ) (n - w - 1)).map (fun i =>
    (List.replicate p i).zip ((pyRange (i - w) (i + w + 1)).zip
      (stencilCoeff x i (pySlice x (i - w) (i + w + 1)))))
  ++ (pyRange (n - w - 1) n).map (fun i =>
    (List.replicate p i).zip ((pyRange (n - p) n).zip
      (stencilCoeff x i (pySlice x (n - p) n))))

theorem pyGet_eq_some {x : List ℚ} {i : ℤ} (hi : 0 ≤ i ∧ i < x.length) :
    pyGet x i = some (x.getD i.toNat 0) := by
  rw [pyGet, if_pos hi]

theorem fd_coeff_isSome {d : ℕ} {x0 : ℚ} {xs : List ℚ}
    (h : d + 1 ≤ xs.length ∧ xs.Nodup) : (fd_coeff d x0 xs).isSome := by
  rw [fd_coeff_eq_some h]
  rfl

theorem fdRow_eq {x : List ℚ} {p : ℕ} {i : ℤ} {cols : List ℤ}
    {nodes : List ℚ} (hi : 0 ≤ i ∧ i < x.length)
    (hsome : (fd_coeff 1 ((pyGet x i).getD 0) nodes).isSome) :
    fdRow x p i cols nodes =
      some (List.replicate p i, cols, stencilCoeff x i nodes) := by
  obtain ⟨c, hc⟩ := Option.isSome_iff_exists.mp (by
    rwa [pyGet_eq_some hi] at hsome)
  simp only [Option.getD_some] at hc
  rw [fdRow, pyGet_eq_some hi]
  show (fd_coeff 1 (x.getD i.toNat 0) nodes).bind
    (fun c => some (List.replicate p i, cols, c)) = _
  rw [hc, Option.some_bind, stencilCoeff, pyGet_eq_some hi]
  show some (List.replicate p i, cols, c) =
    some (List.replicate p i, cols,
      (fd_coeff 1 (x.getD i.toNat 0) nodes).getD [])
  rw [hc]
  rfl

theorem stencil_isSome {x : List ℚ} (hx : x.Nodup) {i : ℤ}
    {nodes : List ℚ} (hsub : nodes.Sublist x) (hlen : 2 ≤ nodes.length) :
    (fd_coeff 1 ((pyGet x i).getD 0) nodes).isSome :=
  fd_coeff_isSome ⟨hlen, List.Nodup.sublist hsub hx⟩

theorem length_stencilCoeff {x : List ℚ} (hx : x.Nodup) {i : ℤ}
    {nodes : List ℚ} (hsub : nodes.Sublist x) (hlen : 2 ≤ nodes.length) :
    (stencilCoeff x i nodes).length = nodes.length := by
  rw [stencilCoeff]
  obtain ⟨c, hc⟩ := Option.isSome_iff_exists.mp
    (stencil_isSome hx hsub hlen (i := i))
  rw [hc]
  exact fd_coeff_length hc

theorem option_bind3 {α β γ δ : Type} {A : Option α} {B : Option β}
    {C : Option γ} {a : α} {b : β} {c : γ} (hA : A = some a)
    (hB : B = some b) (hC : C = some c) (f : α → β → γ → Option δ) :
    (do
      let x ← A
      let y ← B
      let z ← C
      f x y z) = f a b c := by
  rw [hA, hB, hC]
  rfl

theorem length_flatten_congr {α β γ : Type} (l : List α) (f : α → List β)
    (g : α → List γ) (h : ∀ a ∈ l, (f a).length = (g a).length) :
    ((l.map f).flatten).length = ((l.map g).flatten).length := by
  rw [List.length_flatten, List.length_flatten, List.map_map, List.map_map]
  exact congrArg List.sum (List.map_congr_left (fun a ha => h a ha))

theorem first_deriv_matrix_eq {x : List ℚ} {w : ℕ} (hx : x.Nodup)
    (hw : 1 ≤ w) (hn : 2 * w + 1 ≤ x.length) :
    first_deriv_matrix x w = some (fdmBlocks x w).flatten := by
  have hslR : (pySlice x 0 ((2 * w + 1 : ℕ) : ℤ)).length = 2 * w + 1 := by
    rw [length_pySlice_of_bounds (by omega) (by omega)
      (by exact_mod_cast hn)]
    omega
  have hslC : ∀ i : ℤ, (w : ℤ) ≤ i → i < (x.length : ℤ) - (w : ℤ) - 1 →
      (pySlice x (i - (w : ℤ)) (i + (w : ℤ) + 1)).length = 2 * w + 1 := by
    intro i h1 h2
    rw [length_pySlice_of_bounds (by omega) (by omega) (by omega)]
    omega
  have hslL : (pySlice x ((x.length : ℤ) - ((2 * w + 1 : ℕ) : ℤ))
      (x.length : ℤ)).length = 2 * w + 1 := by
    have hp : ((2 * w + 1 : ℕ) : ℤ) ≤ (x.length : ℤ) := by exact_mod_cast hn
    rw [length_pySlice_of_bounds (by omega) (by omega) (by omega)]
    omega
  have hR := optMap_eq_map
    (fun i => fdRow x (2 * w + 1) i (pyRange 0 ((2 * w + 1 : ℕ) : ℤ))
      (pySlice x 0 ((2 * w + 1 : ℕ) : ℤ)))
    (fun i => (List.replicate (2 * w + 1) i,
      pyRange 0 ((2 * w + 1 : ℕ) : ℤ),
      stencilCoeff x i (pySlice x 0 ((2 * w + 1 : ℕ) : ℤ))))
    (pyRange 0 (w : ℤ)) (by
      intro i hi
      have hb := mem_pyRange.mp hi
      refine fdRow_eq ⟨hb.1, ?_⟩ (stencil_isSome hx (pySlice_sublist _ _ _)
        (by rw [hslR]; omega))
      have : (w : ℤ) < (x.length : ℤ) := by
        have := hn
        omega
      omega)
  have hC := optMap_eq_map
    (fun i => fdRow x (2 * w + 1) i (pyRange (i - (w : ℤ)) (i + (w : ℤ) + 1))
      (pySlice x (i - (w : ℤ)) (i + (w : ℤ) + 1)))
    (fun i => (List.replicate (2 * w + 1) i,
      pyRange (i - (w : ℤ)) (i + (w : ℤ) + 1),
      stencilCoeff x i (pySlice x (i - (w : ℤ)) (i + (w : ℤ) + 1))))
    (pyRange (w : ℤ) ((x.length : ℤ) - (w : ℤ) - 1)) (by
      intro i hi
      have hb := mem_pyRange.mp hi
      refine fdRow_eq ⟨by omega, by omega⟩
        (stencil_isSome hx (pySlice_sublist _ _ _)
          (by rw [hslC i hb.1 hb.2]; omega)))
  have hL := optMap_eq_map
    (fun i => fdRow x (2 * w + 1) i
      (pyRange ((x.length : ℤ) - ((2 * w + 1 : ℕ) : ℤ)) (x.length : ℤ))
      (pySlice x ((x.length : ℤ) - ((2 * w + 1 : ℕ) : ℤ)) (x.length : ℤ)))
    (fun i => (List.replicate (2 * w + 1) i,
      pyRange ((x.length : ℤ) - ((2 * w + 1 : ℕ) : ℤ)) (x.length : ℤ),
      stencilCoeff x i
        (pySlice x ((x.length : ℤ) - ((2 * w + 1 : ℕ) : ℤ))
          (x.length : ℤ))))
    (pyRange ((x.length : ℤ) - (w : ℤ) - 1) (x.length : ℤ)) (by
      intro i hi
      have hb := mem_pyRange.mp hi
      have hp : ((2 * w + 1 : ℕ) : ℤ) ≤ (x.length : ℤ) := by
        exact_mod_cast hn
      refine fdRow_eq ⟨by omega, hb.2⟩
        (stencil_isSome hx (pySlice_sublist _ _ _) (by rw [hslL]; omega)))
  calc first_deriv_matrix x w
      = cooCtor
          (((((pyRange 0 (w : ℤ)).map (fun i =>
              (List.replicate (2 * w + 1) i,
               pyRange 0 ((2 * w + 1 : ℕ) : ℤ),
               stencilCoeff x i (pySlice x 0 ((2 * w + 1 : ℕ) : ℤ))))) ++
            (((pyRange (w : ℤ) ((x.length : ℤ) - (w : ℤ) - 1)).map (fun i =>
              (List.replicate (2 * w + 1) i,
               pyRange (i - (w : ℤ)) (i + (w : ℤ) + 1),
               stencilCoeff x i
                 (pySlice x (i - (w : ℤ)) (i + (w : ℤ) + 1)))))) ++
            (((pyRange ((x.length : ℤ) - (w : ℤ) - 1) (x.length : ℤ)).map
              (fun i =>
              (List.replicate (2 * w + 1) i,
               pyRange ((x.length : ℤ) - ((2 * w + 1 : ℕ) : ℤ))
                 (x.length : ℤ),
               stencilCoeff x i
                 (pySlice x ((x.length : ℤ) - ((2 * w + 1 : ℕ) : ℤ))
                   (x.length : ℤ))))))).map (fun b => b.2.2)).flatten)
          (((((pyRange 0 (w : ℤ)).map (fun i =>
              (List.replicate (2 * w + 1) i,
               pyRange 0 ((2 * w + 1 : ℕ) : ℤ),
               stencilCoeff x i (pySlice x 0 ((2 * w + 1 : ℕ) : ℤ))))) ++
            (((pyRange (w : ℤ) ((x.length : ℤ) - (w : ℤ) - 1)).map (fun i =>
              (List.replicate (2 * w + 1) i,
               pyRange (i - (w : ℤ)) (i + (w : ℤ) + 1),
               stencilCoeff x i
                 (pySlice x (i - (w : ℤ)) (i + (w : ℤ) + 1)))))) ++
            (((pyRange ((x.length : ℤ) - (w : ℤ) - 1) (x.length : ℤ)).map
              (fun i =>
              (List.replicate (2 * w + 1) i,
               pyRange ((x.length : ℤ) - ((2 * w + 1 : ℕ) : ℤ))
                 (x.length : ℤ),
               stencilCoeff x i
                 (pySlice x ((x.length : ℤ) - ((2 * w + 1 : ℕ) : ℤ))
                   (x.length : ℤ))))))).map (fun b => b.1)).flatten)
          (((((pyRange 0 (w : ℤ)).map (fun i =>
              (List.replicate (2 * w + 1) i,
               pyRange 0 ((2 * w + 1 : ℕ) : ℤ),
               stencilCoeff x i (pySlice x 0 ((2 * w + 1 : ℕ) : ℤ))))) ++
            (((pyRange (w : ℤ) ((x.length : ℤ) - (w : ℤ) - 1)).map (fun i =>
              (List.replicate (2 * w + 1) i,
               pyRange (i - (w : ℤ)) (i + (w : ℤ) + 1),
               stencilCoeff x i
                 (pySlice x (i - (w : ℤ)) (i + (w : ℤ) + 1)))))) ++
            (((pyRange ((x.length : ℤ) - (w : ℤ) - 1) (x.length : ℤ)).map
              (fun i =>
              (List.replicate (2 * w + 1) i,
               pyRange ((x.length : ℤ) - ((2 * w + 1 : ℕ) : ℤ))
                 (x.length : ℤ),
               stencilCoeff x i
                 (pySlice x ((x.length : ℤ) - ((2 * w + 1 : ℕ) : ℤ))
                   (x.length : ℤ))))))).map (fun b => b.2.1)).flatten) := by
        rw [first_deriv_matrix]
        exact option_bind3 hR hC hL _
    _ = some (fdmBlocks x w).flatten := by
        have hp : ((2 * w + 1 : ℕ) : ℤ) ≤ (x.length : ℤ) := by
          exact_mod_cast hn
        set RB := (pyRange 0 (w : ℤ)).map (fun i =>
          (List.replicate (2 * w + 1) i,
           pyRange 0 ((2 * w + 1 : ℕ) : ℤ),
           stencilCoeff x i (pySlice x 0 ((2 * w + 1 : ℕ) : ℤ))))
          with hRB
        set CB := (pyRange (w : ℤ) ((x.length : ℤ) - (w : ℤ) - 1)).map
          (fun i =>
          (List.replicate (2 * w + 1) i,
           pyRange (i - (w : ℤ)) (i + (w : ℤ) + 1),
           stencilCoeff x i (pySlice x (i - (w : ℤ)) (i + (w : ℤ) + 1))))
          with hCB
        set LB := (pyRange ((x.length : ℤ) - (w : ℤ) - 1)
            (x.length : ℤ)).map (fun i =>
          (List.replicate (2 * w + 1) i,
           pyRange ((x.length : ℤ) - ((2 * w + 1 : ℕ) : ℤ)) (x.length : ℤ),
           stencilCoeff x i
             (pySlice x ((x.length : ℤ) - ((2 * w + 1 : ℕ) : ℤ))
               (x.length : ℤ)))) with hLB
        have hblocks : ∀ b ∈ RB ++ CB ++ LB,
            b.1.length = 2 * w + 1 ∧ b.2.1.length = 2 * w + 1 ∧
            b.2.2.length = 2 * w + 1 ∧ (∀ r ∈ b.1, 0 ≤ r) ∧
            (∀ c ∈ b.2.1, 0 ≤ c) := by
          intro b hb
          rcases List.mem_append.mp hb with hb' | hbL
          · rcases List.mem_append.mp hb' with hbR | hbC
            · rw [hRB] at hbR
              obtain ⟨i, hi, rfl⟩ := List.mem_map.mp hbR
              have hbnd := mem_pyRange.mp hi
              refine ⟨List.length_replicate _ _, ?_, ?_, ?_, ?_⟩
              · rw [length_pyRange]
                omega
              · rw [length_stencilCoeff hx (pySlice_sublist _ _ _)
                  (by rw [hslR]; omega), hslR]
              · intro r hr
                rw [List.eq_of_mem_replicate hr]
                exact hbnd.1
              · intro c hc
                exact (mem_pyRange.mp hc).1
            · rw [hCB] at hbC
              obtain ⟨i, hi, rfl⟩ := List.mem_map.mp hbC
              have hbnd := mem_pyRange.mp hi
              refine ⟨List.length_replicate _ _, ?_, ?_, ?_, ?_⟩
              · rw [length_pyRange]
                omega
              · rw [length_stencilCoeff hx (pySlice_sublist _ _ _)
                  (by rw [hslC i hbnd.1 hbnd.2]; omega),
                  hslC i hbnd.1 hbnd.2]
              · intro r hr
                rw [List.eq_of_mem_replicate hr]
                omega
              · intro c hc
                have := (mem_pyRange.mp hc).1
                omega
          · rw [hLB] at hbL
            obtain ⟨i, hi, rfl⟩ := List.mem_map.mp hbL
            have hbnd := mem_pyRange.mp hi
            refine ⟨List.length_replicate _ _, ?_, ?_, ?_, ?_⟩
            · rw [length_pyRange]
              omega
            · rw [length_stencilCoeff hx (pySlice_sublist _ _ _)
                (by rw [hslL]; omega), hslL]
            · intro r hr
              rw [List.eq_of_mem_replicate hr]
              omega
            · intro c hc
              have := (mem_pyRange.mp hc).1
              omega
        rw [cooCtor_pos ⟨?_, ?_, ?_, ?_, ?_⟩]
        · rw [zip_flatten_blocks _ (fun b hb =>
            ⟨((hblocks b hb).1).trans ((hblocks b hb).2.1).symm,
             ((hblocks b hb).2.1).trans ((hblocks b hb).2.2.1).symm⟩)]
          refine congrArg (fun z => some z) ?_
          rw [List.map_append, List.map_append, hRB, hCB, hLB,
            List.map_map, List.map_map, List.map_map, fdmBlocks]
          rfl
        · exact length_flatten_congr _ _ _ (fun b hb =>
            ((hblocks b hb).2.2.1).trans ((hblocks b hb).1).symm)
        · exact length_flatten_congr _ _ _ (fun b hb =>
            ((hblocks b hb).2.1).trans ((hblocks b hb).1).symm)
        · intro r hr
          obtain ⟨b, hb, hrb⟩ := mem_flatten_map hr
          exact (hblocks b hb).2.2.2.1 r hrb
        · intro c hc
          obtain ⟨b, hb, hcb⟩ := mem_flatten_map hc
          exact (hblocks b hb).2.2.2.2 c hcb
        · refine List.ne_nil_of_length_pos ?_
          rw [length_flatten_map _ _ (2 * w + 1)
            (fun b hb => (hblocks b hb).1)]
          have h1 : 1 ≤ RB.length := by
            rw [hRB, List.length_map, length_pyRange]
            omega
          rw [List.length_append, List.length_append]
          positivity

theorem fdmBlocks_def (x : List ℚ) (w : ℕ) : fdmBlocks x w =
    (pyRange 0 (w : ℤ)).map (fun i =>
      (List.replicate (2 * w + 1) i).zip
        ((pyRange 0 ((2 * w + 1 : ℕ) : ℤ)).zip
          (stencilCoeff x i (pySlice x 0 ((2 * w + 1 : ℕ) : ℤ)))))
    ++ (pyRange (w : ℤ) ((x.length : ℤ) - (w : ℤ) - 1)).map (fun i =>
      (List.replicate (2 * w + 1) i).zip
        ((pyRange (i - (w : ℤ)) (i + (w : ℤ) + 1)).zip
          (stencilCoeff x i (pySlice x (i - (w : ℤ)) (i + (w : ℤ) + 1)))))
    ++ (pyRange ((x.length : ℤ) - (w : ℤ) - 1) (x.length : ℤ)).map
      (fun i =>
      (List.replicate (2 * w + 1) i).zip
        ((pyRange ((x.length : ℤ) - ((2 * w + 1 : ℕ) : ℤ))
          (x.length : ℤ)).zip
          (stencilCoeff x i
            (pySlice x ((x.length : ℤ) - ((2 * w + 1 : ℕ) : ℤ))
              (x.length : ℤ))))) := rfl

theorem fdm_entry_right {x : List ℚ} {w : ℕ} (hw : 1 ≤ w)
    (hn : 2 * w + 1 ≤ x.length) {i : ℤ} (hi : 0 ≤ i ∧ i < (w : ℤ))
    (c : ℤ) :
    cooEntry (fdmBlocks x w).flatten i c =
      (((pyRange 0 ((2 * w + 1 : ℕ) : ℤ)).zip
        (stencilCoeff x i (pySlice x 0 ((2 * w + 1 : ℕ) : ℤ)))).map
          (fun cv => if cv.1 = c then cv.2 else 0)).sum := by
  have hp : ((2 * w + 1 : ℕ) : ℤ) ≤ (x.length : ℤ) := by exact_mod_cast hn
  rw [fdmBlocks_def, List.flatten_append, List.flatten_append,
    cooEntry_append, cooEntry_append, cooEntry_flatten, cooEntry_flatten,
    cooEntry_flatten, List.map_map, List.map_map, List.map_map]
  rw [List.sum_eq_zero (l := List.map _
      (pyRange (w : ℤ) ((x.length : ℤ) - (w : ℤ) - 1))) (by
    intro y hy
    obtain ⟨j, hj, rfl⟩ := List.mem_map.mp hy
    have hbnd := mem_pyRange.mp hj
    exact cooEntry_of_ne_row (fun t ht => by
      rw [rowZip_fst ht]
      omega) c)]
  rw [List.sum_eq_zero (l := List.map _
      (pyRange ((x.length : ℤ) - (w : ℤ) - 1) (x.length : ℤ))) (by
    intro y hy
    obtain ⟨j, hj, rfl⟩ := List.mem_map.mp hy
    have hbnd := mem_pyRange.mp hj
    exact cooEntry_of_ne_row (fun t ht => by
      rw [rowZip_fst ht]
      omega) c)]
  rw [add_zero, add_zero]
  rw [sum_map_single (pyRange_nodup 0 (w : ℤ)) (mem_pyRange.mpr hi) _ (by
    intro j _ hji
    exact cooEntry_of_ne_row (fun t ht => by
      rw [rowZip_fst ht]
      exact hji) c)]
  show cooEntry ((List.replicate (2 * w + 1) i).zip _) i c = _
  nth_rewrite 1 [show (2 * w + 1) =
    (pyRange 0 ((2 * w + 1 : ℕ) : ℤ)).length from by
    rw [length_pyRange]; omega]
  rw [cooEntry_rowZip]

theorem fdm_entry_center {x : List ℚ} {w : ℕ} (hw : 1 ≤ w)
    (hn : 2 * w + 1 ≤ x.length) {i : ℤ}
    (hi : (w : ℤ) ≤ i ∧ i < (x.length : ℤ) - (w : ℤ) - 1) (c : ℤ) :
    cooEntry (fdmBlocks x w).flatten i c =
      (((pyRange (i - (w : ℤ)) (i + (w : ℤ) + 1)).zip
        (stencilCoeff x i (pySlice x (i - (w : ℤ)) (i + (w : ℤ) + 1)))).map
          (fun cv => if cv.1 = c then cv.2 else 0)).sum := by
  rw [fdmBlocks_def, List.flatten_append, List.flatten_append,
    cooEntry_append, cooEntry_append, cooEntry_flatten, cooEntry_flatten,
    cooEntry_flatten, List.map_map, List.map_map, List.map_map]
  rw [List.sum_eq_zero (l := List.map _ (pyRange 0 (w : ℤ))) (by
    intro y hy
    obtain ⟨j, hj, rfl⟩ := List.mem_map.mp hy
    have hbnd := mem_pyRange.mp hj
    exact cooEntry_of_ne_row (fun t ht => by
      rw [rowZip_fst ht]
      omega) c)]
  rw [List.sum_eq_zero (l := List.map _
      (pyRange ((x.length : ℤ) - (w : ℤ) - 1) (x.length : ℤ))) (by
    intro y hy
    obtain ⟨j, hj, rfl⟩ := List.mem_map.mp hy
    have hbnd := mem_pyRange.mp hj
    exact cooEntry_of_ne_row (fun t ht => by
      rw [rowZip_fst ht]
      omega) c)]
  rw [zero_add, add_zero]
  rw [sum_map_single (pyRange_nodup (w : ℤ) ((x.length : ℤ) - (w : ℤ) - 1))
    (mem_pyRange.mpr hi) _ (by
    intro j _ hji
    exact cooEntry_of_ne_row (fun t ht => by
      rw [rowZip_fst ht]
      exact hji) c)]
  show cooEntry ((List.replicate (2 * w + 1) i).zip _) i c = _
  rw [show (2 * w + 1) =
    (pyRange (i - (w : ℤ)) (i + (w : ℤ) + 1)).length from by
    rw [length_pyRange]; omega, cooEntry_rowZip]

theorem fdm_entry_left {x : List ℚ} {w : ℕ} (hw : 1 ≤ w)
    (hn : 2 * w + 1 ≤ x.length) {i : ℤ}
    (hi : (x.length : ℤ) - (w : ℤ) - 1 ≤ i ∧ i < (x.length : ℤ)) (c : ℤ) :
    cooEntry (fdmBlocks x w).flatten i c =
      (((pyRange ((x.length : ℤ) - ((2 * w + 1 : ℕ) : ℤ))
        (x.length : ℤ)).zip
        (stencilCoeff x i
          (pySlice x ((x.length : ℤ) - ((2 * w + 1 : ℕ) : ℤ))
            (x.length : ℤ)))).map
          (fun cv => if cv.1 = c then cv.2 else 0)).sum := by
  have hp : ((2 * w + 1 : ℕ) : ℤ) ≤ (x.length : ℤ) := by exact_mod_cast hn
  rw [fdmBlocks_def, List.flatten_append, List.flatten_append,
    cooEntry_append, cooEntry_append, cooEntry_flatten, cooEntry_flatten,
    cooEntry_flatten, List.map_map, List.map_map, List.map_map]
  rw [List.sum_eq_zero (l := List.map _ (pyRange 0 (w : ℤ))) (by
    intro y hy
    obtain ⟨j, hj, rfl⟩ := List.mem_map.mp hy
    have hbnd := mem_pyRange.mp hj
    exact cooEntry_of_ne_row (fun t ht => by
      rw [rowZip_fst ht]
      omega) c)]
  rw [List.sum_eq_zero (l := List.map _
      (pyRange (w : ℤ) ((x.length : ℤ) - (w : ℤ) - 1))) (by
    intro y hy
    obtain ⟨j, hj, rfl⟩ := List.mem_map.mp hy
    have hbnd := mem_pyRange.mp hj
    exact cooEntry_of_ne_row (fun t ht => by
      rw [rowZip_fst ht]
      omega) c)]
  rw [zero_add, zero_add]
  rw [sum_map_single
    (pyRange_nodup ((x.length : ℤ) - (w : ℤ) - 1) (x.length : ℤ))
    (mem_pyRange.mpr hi) _ (by
    intro j _ hji
    exact cooEntry_of_ne_row (fun t ht => by
      rw [rowZip_fst ht]
      exact hji) c)]
  show cooEntry ((List.replicate (2 * w + 1) i).zip _) i c = _
  nth_rewrite 1 [show (2 * w + 1) =
    (pyRange ((x.length : ℤ) - ((2 * w + 1 : ℕ) : ℤ))
      (x.length : ℤ)).length from by
    rw [length_pyRange]; omega]
  rw [cooEntry_rowZip]

/-- Interior rows (`w ≤ i ≤ n-w-2` from the centered loop, plus
`i = n-w-1`, whose left-biased column range and node slice coincide with
the centered ones): the row's entries come from the centered stencil. -/
theorem fdm_entry_interior {x : List ℚ} {w : ℕ} (hw : 1 ≤ w)
    (hn : 2 * w + 1 ≤ x.length) {i : ℤ}
    (hi : (w : ℤ) ≤ i ∧ i ≤ (x.length : ℤ) - (w : ℤ) - 1) (c : ℤ) :
    cooEntry (fdmBlocks x w).flatten i c =
      (((pyRange (i - (w : ℤ)) (i + (w : ℤ) + 1)).zip
        (stencilCoeff x i
          (pySlice x (i - (w : ℤ)) (i + (w : ℤ) + 1)))).map
          (fun cv => if cv.1 = c then cv.2 else 0)).sum := by
  rcases lt_or_ge i ((x.length : ℤ) - (w : ℤ) - 1) with hlt | hge
  · exact fdm_entry_center hw hn ⟨hi.1, hlt⟩ c
  · have h1 : (x.length : ℤ) - ((2 * w + 1 : ℕ) : ℤ) = i - (w : ℤ) := by
      omega
    have h2 : (x.length : ℤ) = i + (w : ℤ) + 1 := by
      omega
    have hout := fdm_entry_left hw hn (i := i) ⟨hge, by omega⟩ c
    rw [h1] at hout
    nth_rewrite 2 [h2] at hout
    nth_rewrite 1 [h2] at hout
    exact hout

theorem fdm_entry_interior_band {x : List ℚ} {w : ℕ} (hx : x.Nodup)
    (hw : 1 ≤ w) (hn : 2 * w + 1 ≤ x.length) {i : ℤ}
    (hi : (w : ℤ) ≤ i ∧ i ≤ (x.length : ℤ) - (w : ℤ) - 1) {t : ℕ}
    (ht : t < 2 * w + 1) :
    cooEntry (fdmBlocks x w).flatten i (i - (w : ℤ) + t) =
      (stencilCoeff x i
        (pySlice x (i - (w : ℤ)) (i + (w : ℤ) + 1))).getD t 0 := by
  have hslice : (pySlice x (i - (w : ℤ)) (i + (w : ℤ) + 1)).length =
      2 * w + 1 := by
    rw [length_pySlice_of_bounds (by omega) (by omega) (by omega)]
    omega
  rw [fdm_entry_interior hw hn hi]
  have hco : (pyRange (i - (w : ℤ)) (i + (w : ℤ) + 1)).getD t 0 =
      i - (w : ℤ) + t := by
    rw [List.getD_eq_getElem _ _ (by rw [length_pyRange]; omega),
      getElem_pyRange]
  rw [← hco, zipSum_getD (pyRange_nodup _ _) (by
    rw [length_stencilCoeff hx (pySlice_sublist _ _ _)
      (by rw [hslice]; omega), hslice, length_pyRange]
    omega) (by rw [length_pyRange]; omega)]

theorem fdm_entry_interior_off {x : List ℚ} {w : ℕ} (hw : 1 ≤ w)
    (hn : 2 * w + 1 ≤ x.length) {i : ℤ}
    (hi : (w : ℤ) ≤ i ∧ i ≤ (x.length : ℤ) - (w : ℤ) - 1) {c : ℤ}
    (hc : c < i - (w : ℤ) ∨ i + (w : ℤ) < c) :
    cooEntry (fdmBlocks x w).flatten i c = 0 := by
  rw [fdm_entry_interior hw hn hi]
  refine zipSum_of_not_mem _ ?_
  intro hmem
  have := mem_pyRange.mp hmem
  omega

/-! ### Failure of `first_deriv_matrix` on grids with fewer than `2w+1`
points -/

theorem cooCtor_ne {data : List ℚ} {rI cJ : List ℤ}
    (h : data.length ≠ rI.length) : cooCtor data rI cJ = none := by
  unfold cooCtor
  rw [if_neg]
  intro hcond
  exact h hcond.1

theorem option_bind3_none₁ {α β γ δ : Type} {A : Option α} {B : Option β}
    {C : Option γ} (hA : A = none) (f : α → β → γ → Option δ) :
    (do
      let x ← A
      let y ← B
      let z ← C
      f x y z) = none := by
  rw [hA]
  rfl

theorem option_bind3_none₂ {α β γ δ : Type} {A : Option α} {B : Option β}
    {C : Option γ} (hB : B = none) (f : α → β → γ → Option δ) :
    (do
      let x ← A
      let y ← B
      let z ← C
      f x y z) = none := by
  cases A with
  | none => rfl
  | some a =>
    show (do
      let y ← B
      let z ← C
      f a y z) = none
    rw [hB]
    rfl

theorem option_bind3_none₃ {α β γ δ : Type} {A : Option α} {B : Option β}
    {C : Option γ} (hC : C = none) (f : α → β → γ → Option δ) :
    (do
      let x ← A
      let y ← B
      let z ← C
      f x y z) = none := by
  cases A with
  | none => rfl
  | some a =>
    show (do
      let y ← B
      let z ← C
      f a y z) = none
    cases B with
    | none => rfl
    | some b =>
      show (do
        let z ← C
        f a b z) = none
      rw [hC]
      rfl

theorem forall₂_mem_right {α β : Type} {R : α → β → Prop} {l : List α}
    {r : List β} (h : List.Forall₂ R l r) {b : β} (hb : b ∈ r) :
    ∃ a ∈ l, R a b := by
  induction h with
  | nil => cases hb
  | cons hab hF ih =>
    rcases List.mem_cons.mp hb with rfl | hb'
    · exact ⟨_, List.mem_cons_self _ _, hab⟩
    · obtain ⟨a', ha', hR⟩ := ih hb'
      exact ⟨a', List.mem_cons_of_mem _ ha', hR⟩

theorem fdRow_some_lengths {x : List ℚ} {p : ℕ} {i : ℤ} {cols : List ℤ}
    {nodes : List ℚ} {b : List ℤ × List ℤ × List ℚ}
    (h : fdRow x p i cols nodes = some b) :
    b.1.length = p ∧ b.2.2.length = nodes.length := by
  have h' : (pyGet x i).bind (fun xi => (fd_coeff 1 xi nodes).bind
      (fun c => some (List.replicate p i, cols, c))) = some b := h
  cases hg : pyGet x i with
  | none =>
    rw [hg, Option.none_bind] at h'
    cases h'
  | some v =>
    rw [hg, Option.some_bind] at h'
    cases hc : fd_coeff 1 v nodes with
    | none =>
      rw [hc, Option.none_bind] at h'
      cases h'
    | some c =>
      rw [hc, Option.some_bind] at h'
      cases h'
      exact ⟨List.length_replicate _ _, fd_coeff_length hc⟩

theorem pySlice_length_le (x : List ℚ) (a b : ℤ) :
    (pySlice x a b).length ≤ x.length :=
  List.Sublist.length_le (pySlice_sublist x a b)

/-- When the grid has fewer than `2w+1` points, `first_deriv_matrix`
does not return a matrix: either an index access or a coefficient
computation raises inside a loop, or the `data` array ends up strictly
shorter than the index arrays and the sparse constructor rejects the
mismatched lengths. -/
theorem first_deriv_matrix_none {x : List ℚ} {w : ℕ} (hw : 1 ≤ w)
    (hn : x.length < 2 * w + 1) : first_deriv_matrix x w = none := by
  cases hR : optMap (fun i => fdRow x (2 * w + 1) i
      (pyRange 0 ((2 * w + 1 : ℕ) : ℤ))
      (pySlice x 0 ((2 * w + 1 : ℕ) : ℤ))) (pyRange 0 (w : ℤ)) with
  | none =>
    rw [first_deriv_matrix]
    exact option_bind3_none₁ hR _
  | some R =>
    cases hC : optMap (fun i => fdRow x (2 * w + 1) i
        (pyRange (i - (w : ℤ)) (i + (w : ℤ) + 1))
        (pySlice x (i - (w : ℤ)) (i + (w : ℤ) + 1)))
        (pyRange (w : ℤ) ((x.length : ℤ) - (w : ℤ) - 1)) with
    | none =>
      rw [first_deriv_matrix]
      exact option_bind3_none₂ hC _
    | some C =>
      cases hL : optMap (fun i => fdRow x (2 * w + 1) i
          (pyRange ((x.length : ℤ) - ((2 * w + 1 : ℕ) : ℤ))
            (x.length : ℤ))
          (pySlice x ((x.length : ℤ) - ((2 * w + 1 : ℕ) : ℤ))
            (x.length : ℤ)))
          (pyRange ((x.length : ℤ) - (w : ℤ) - 1) (x.length : ℤ)) with
      | none =>
        rw [first_deriv_matrix]
        exact option_bind3_none₃ hL _
      | some L =>
        have hF2R := optMap_forall₂ hR
        have hF2C := optMap_forall₂ hC
        have hF2L := optMap_forall₂ hL
        have hmem : ∀ b ∈ R ++ C ++ L, b.2.2.length < b.1.length := by
          intro b hb
          rcases List.mem_append.mp hb with hb' | hbL
          · rcases List.mem_append.mp hb' with hbR | hbC
            · obtain ⟨i, _, hfd⟩ := forall₂_mem_right hF2R hbR
              obtain ⟨hl1, hl2⟩ := fdRow_some_lengths hfd
              rw [hl1, hl2]
              exact lt_of_le_of_lt (pySlice_length_le _ _ _) hn
            · obtain ⟨i, _, hfd⟩ := forall₂_mem_right hF2C hbC
              obtain ⟨hl1, hl2⟩ := fdRow_some_lengths hfd
              rw [hl1, hl2]
              exact lt_of_le_of_lt (pySlice_length_le _ _ _) hn
          · obtain ⟨i, _, hfd⟩ := forall₂_mem_right hF2L hbL
            obtain ⟨hl1, hl2⟩ := fdRow_some_lengths hfd
            rw [hl1, hl2]
            exact lt_of_le_of_lt (pySlice_length_le _ _ _) hn
        have hne : R ++ C ++ L ≠ [] := by
          refine List.ne_nil_of_length_pos ?_
          have hRlen : R.length = w := by
            have := List.Forall₂.length_eq hF2R
            rw [length_pyRange] at this
            omega
          rw [List.length_append, List.length_append]
          omega
        have hlt := sum_map_lt_of_ne_nil hne (fun b => b.2.2.length)
          (fun b => b.1.length) hmem
        rw [first_deriv_matrix]
        refine (option_bind3 hR hC hL _).trans ?_
        refine cooCtor_ne ?_
        rw [List.length_flatten, List.length_flatten, List.map_map,
          List.map_map]
        exact ne_of_lt hlt

/-! ### The uniform grid and the `w = 1` central stencil -/

/-- A uniform grid `a + j·dx`, `j = 0..n-1` (the value of
`np.arange(n)*dx` shifted by `a`, or `np.linspace` with spacing `dx`). -/
def uniformGrid (a dx : ℚ) (n : ℕ) : List ℚ :=
  List.map (fun j : ℕ => a + j * dx) (List.range n)

theorem length_uniformGrid (a dx : ℚ) (n : ℕ) :
    (uniformGrid a dx n).length = n := by
  rw [uniformGrid, List.length_map, List.length_range]

theorem uniformGrid_nodup (a : ℚ) {dx : ℚ} (hdx : dx ≠ 0) (n : ℕ) :
    (uniformGrid a dx n).Nodup := by
  refine List.Nodup.map ?_ (List.nodup_range _)
  intro j k h
  have h' : a + (j : ℚ) * dx = a + (k : ℚ) * dx := h
  have h2 : (j : ℚ) * dx = (k : ℚ) * dx := by linarith
  have := mul_right_cancel₀ hdx h2
  exact_mod_cast this

theorem pyGet_uniformGrid {a dx : ℚ} {n : ℕ} {i : ℤ}
    (hi : 0 ≤ i ∧ i < ((uniformGrid a dx n).length : ℤ)) :
    (pyGet (uniformGrid a dx n) i).getD 0 = a + (i : ℚ) * dx := by
  have hi' : 0 ≤ i ∧ i < (n : ℤ) := by
    rwa [length_uniformGrid] at hi
  rw [pyGet_eq_some hi, Option.getD_some]
  show (List.map (fun j : ℕ => a + j * dx) (List.range n)).getD i.toNat 0
    = a + (i : ℚ) * dx
  rw [List.getD_eq_getElem _ _ (by
    rw [List.length_map, List.length_range]
    omega), List.getElem_map, List.getElem_range]
  congr 1
  congr 1
  rw [show ((i.toNat : ℕ) : ℚ) = ((i.toNat : ℤ) : ℚ) from by push_cast; rfl]
  congr 1
  omega

theorem pySlice_uniformGrid {a dx : ℚ} {n : ℕ} {i : ℤ}
    (hi : 1 ≤ i ∧ i ≤ (n : ℤ) - 2) :
    pySlice (uniformGrid a dx n) (i - 1) (i + 1 + 1) =
      [a + ((i : ℚ) - 1) * dx, a + (i : ℚ) * dx, a + ((i : ℚ) + 1) * dx]
      := by
  have hlen : (pySlice (uniformGrid a dx n) (i - 1) (i + 1 + 1)).length =
      3 := by
    rw [length_pySlice_of_bounds (by omega) (by omega)
      (by rw [length_uniformGrid]; omega)]
    omega
  refine List.ext_getElem (by rw [hlen]; rfl) ?_
  intro t h1 h2
  rw [getElem_pySlice (by omega) (by omega)
    (by rw [length_uniformGrid]; omega)]
  have htlt : t < 3 := by rw [hlen] at h1; exact h1
  have hidx : (i - 1).toNat + t < n := by omega
  show (List.map (fun j : ℕ => a + j * dx) (List.range n)).getD
    ((i - 1).toNat + t) 0 = _
  rw [List.getD_eq_getElem _ _ (by
    rw [List.length_map, List.length_range]
    exact hidx), List.getElem_map, List.getElem_range]
  have hcast : (((i - 1).toNat + t : ℕ) : ℚ) = (i : ℚ) - 1 + t := by
    rw [show (((i - 1).toNat + t : ℕ) : ℚ) =
      (((i - 1).toNat + t : ℤ) : ℚ) from by push_cast; ring]
    rw [show ((i - 1).toNat + (t : ℤ)) = i - 1 + t from by omega]
    push_cast
    ring
  interval_cases t
  · show a + (((i - 1).toNat + 0 : ℕ) : ℚ) * dx = a + ((i : ℚ) - 1) * dx
    rw [hcast]
    push_cast
    ring
  · show a + (((i - 1).toNat + 1 : ℕ) : ℚ) * dx = a + (i : ℚ) * dx
    rw [hcast]
    push_cast
    ring
  · show a + (((i - 1).toNat + 2 : ℕ) : ℚ) * dx = a + ((i : ℚ) + 1) * dx
    rw [hcast]
    push_cast
    ring

/-- The three-node centered stencil: `fd_coeff(1, z, [z-dx, z, z+dx])`
returns the second-order central-difference coefficients. -/
theorem fd_coeff_central_w1 (z : ℚ) {dx : ℚ} (hdx : dx ≠ 0) :
    fd_coeff 1 z [z - dx, z, z + dx] =
      some [-(1 / (2 * dx)), 0, 1 / (2 * dx)] := by
  have hnd : ([z - dx, z, z + dx] : List ℚ).Nodup := by
    refine List.nodup_cons.mpr ⟨?_, List.nodup_cons.mpr
      ⟨?_, List.nodup_singleton _⟩⟩
    · intro h
      rcases List.mem_cons.mp h with h | h
      · exact hdx (by linarith)
      · rw [List.mem_singleton] at h
        exact hdx (by linarith)
    · intro h
      rw [List.mem_singleton] at h
      exact hdx (by linarith)
  rw [fd_coeff, if_pos ⟨by norm_num, hnd⟩]
  congr 1
  simp only [List.length_cons, List.length_nil, List.range_succ,
    List.range_zero, List.map_append, List.map_cons, List.map_nil,
    lagBasisList, lagDenom, prodLin, List.eraseIdx]
  norm_num [polyScale, polyMul, polyAdd, polyDeriv, polyEval]
  refine ⟨?_, ?_, ?_⟩
  · field_simp
    have hne1 : -(dx * (z - dx - (z + dx))) ≠ 0 := by
      rw [show -(dx * (z - dx - (z + dx))) = 2 * dx ^ 2 from by ring]
      positivity
    rw [div_eq_iff hne1]
    ring
  · field_simp
    ring
  · field_simp
    have hne3 : dx * (dx + dx) ≠ 0 := by
      rw [show dx * (dx + dx) = 2 * dx ^ 2 from by ring]
      positivity
    rw [div_eq_iff hne3]
    ring

/-! ### Characterization of the 2-D Poisson assembly -/

/-- The `(i, j)` iteration order of the nested Poisson assembly loops. -/
def poissonPairs (n_x n_y : ℕ) : List (ℕ × ℕ) :=
  (List.range n_y).flatMap (fun i => (List.range n_x).map (fun j => (i, j)))

/-- The triples contributed by grid point `(i, j)`. -/
def poissonZipRow (n_x n_y : ℕ) (dx dy : ℚ) (i j : ℕ) :
    List (ℤ × ℤ × ℚ) :=
  ((poissonPointRow n_x n_y dx dy i j).1).zip
    (((poissonPointRow n_x n_y dx dy i j).2.1).zip
      ((poissonPointRow n_x n_y dx dy i j).2.2))

/-- All triples assembled by the Poisson loop. -/
def poissonTriples (n_x n_y : ℕ) (dx dy : ℚ) : List (ℤ × ℤ × ℚ) :=
  ((poissonPairs n_x n_y).map
    (fun ij => poissonZipRow n_x n_y dx dy ij.1 ij.2)).flatten

theorem mem_poissonPairs {n_x n_y : ℕ} {p : ℕ × ℕ} :
    p ∈ poissonPairs n_x n_y ↔ p.1 < n_y ∧ p.2 < n_x := by
  rw [poissonPairs, List.mem_flatMap]
  constructor
  · intro ⟨i, hi, hp⟩
    obtain ⟨j, hj, rfl⟩ := List.mem_map.mp hp
    exact ⟨List.mem_range.mp hi, List.mem_range.mp hj⟩
  · intro ⟨h1, h2⟩
    exact ⟨p.1, List.mem_range.mpr h1,
      List.mem_map.mpr ⟨p.2, List.mem_range.mpr h2, rfl⟩⟩

theorem poissonPairs_nodup (n_x n_y : ℕ) : (poissonPairs n_x n_y).Nodup := by
  rw [poissonPairs, List.nodup_flatMap]
  constructor
  · intro i _
    refine List.Nodup.map ?_ (List.nodup_range _)
    intro a b h
    exact (Prod.ext_iff.mp h).2
  · refine List.Pairwise.imp ?_ (List.pairwise_lt_range n_y)
    intro a b hab
    intro t hta htb
    obtain ⟨j, _, rfl⟩ := List.mem_map.mp hta
    obtain ⟨j', _, hEq⟩ := List.mem_map.mp htb
    exact absurd ((Prod.ext_iff.mp hEq).1) (by omega)

theorem grid_index_inj {n_x : ℕ} {i i' j j' : ℤ} (hj : 0 ≤ j ∧ j < (n_x : ℤ))
    (hj' : 0 ≤ j' ∧ j' < (n_x : ℤ))
    (h : i * (n_x : ℤ) + j = i' * (n_x : ℤ) + j') : i = i' ∧ j = j' := by
  rcases lt_trichotomy i i' with hlt | heq | hgt
  · exfalso
    have h2 : (1 : ℤ) * (n_x : ℤ) ≤ (i' - i) * (n_x : ℤ) :=
      mul_le_mul_of_nonneg_right (by omega) (by positivity)
    have h3 : (i' - i) * (n_x : ℤ) = j - j' := by
      have hx : (i' - i) * (n_x : ℤ) =
          (i' * (n_x : ℤ) + j') - (i * (n_x : ℤ) + j) + (j - j') := by
        ring
      rw [hx, h]
      ring
    rw [one_mul] at h2
    linarith
  · refine ⟨heq, ?_⟩
    subst heq
    linarith
  · exfalso
    have h2 : (1 : ℤ) * (n_x : ℤ) ≤ (i - i') * (n_x : ℤ) :=
      mul_le_mul_of_nonneg_right (by omega) (by positivity)
    have h3 : (i - i') * (n_x : ℤ) = j' - j := by
      have hx : (i - i') * (n_x : ℤ) =
          (i * (n_x : ℤ) + j) - (i' * (n_x : ℤ) + j') + (j' - j) := by
        ring
      rw [hx, h]
      ring
    rw [one_mul] at h2
    linarith

theorem grid_k_bounds {n_x n_y i j : ℕ} (hi : i < n_y) (hj : j < n_x) :
    0 ≤ (i : ℤ) * (n_x : ℤ) + (j : ℤ) ∧
    (i : ℤ) * (n_x : ℤ) + (j : ℤ) < (n_x : ℤ) * (n_y : ℤ) := by
  refine ⟨by positivity, ?_⟩
  have h2 : (i : ℤ) * (n_x : ℤ) ≤ ((n_y : ℤ) - 1) * (n_x : ℤ) :=
    mul_le_mul_of_nonneg_right (by omega) (by positivity)
  have h3 : ((n_y : ℤ) - 1) * (n_x : ℤ) + (n_x : ℤ) =
      (n_x : ℤ) * (n_y : ℤ) := by ring
  have hj' : (j : ℤ) < (n_x : ℤ) := by exact_mod_cast hj
  linarith

theorem interior_nat_bounds {n_x n_y i j : ℕ} (hi : i < n_y) (hj : j < n_x)
    (hint : ¬(i = 0 ∨ i = n_y - 1 ∨ j = 0 ∨ j = n_x - 1)) :
    1 ≤ i ∧ i ≤ n_y - 2 ∧ 1 ≤ j ∧ j ≤ n_x - 2 ∧ 3 ≤ n_x ∧ 3 ≤ n_y := by
  push_neg at hint
  omega

theorem interior_col_bounds {n_x n_y i j : ℕ} (h1 : 1 ≤ i)
    (h2 : i ≤ n_y - 2) (h3 : 1 ≤ j) (h4 : j ≤ n_x - 2) (hx : 3 ≤ n_x)
    (hy : 3 ≤ n_y) :
    0 ≤ (i : ℤ) * (n_x : ℤ) + (j : ℤ) - (n_x : ℤ) ∧
    (i : ℤ) * (n_x : ℤ) + (j : ℤ) + (n_x : ℤ) <
      (n_x : ℤ) * (n_y : ℤ) := by
  have e1 : (i : ℤ) * (n_x : ℤ) + (j : ℤ) - (n_x : ℤ) =
      ((i : ℤ) - 1) * (n_x : ℤ) + (j : ℤ) := by ring
  have e2 : (i : ℤ) * (n_x : ℤ) + (j : ℤ) + (n_x : ℤ) =
      ((i : ℤ) + 1) * (n_x : ℤ) + (j : ℤ) := by ring
  have hl : 0 ≤ ((i : ℤ) - 1) * (n_x : ℤ) :=
    mul_nonneg (by omega) (by positivity)
  have hu : ((i : ℤ) + 1) * (n_x : ℤ) ≤ ((n_y : ℤ) - 1) * (n_x : ℤ) :=
    mul_le_mul_of_nonneg_right (by omega) (by positivity)
  have h5 : ((n_y : ℤ) - 1) * (n_x : ℤ) + (n_x : ℤ) =
      (n_x : ℤ) * (n_y : ℤ) := by ring
  have hj' : (j : ℤ) < (n_x : ℤ) := by
    exact_mod_cast (by omega : j < n_x)
  have hj0 : 0 ≤ (j : ℤ) := by positivity
  exact ⟨by linarith, by linarith⟩

theorem poissonZipRow_boundary {n_x n_y : ℕ} (dx dy : ℚ) {i j : ℕ}
    (hb : i = 0 ∨ i = n_y - 1 ∨ j = 0 ∨ j = n_x - 1) :
    poissonZipRow n_x n_y dx dy i j =
      [((i : ℤ) * (n_x : ℤ) + (j : ℤ), (i : ℤ) * (n_x : ℤ) + (j : ℤ), 1)]
      := by
  rw [poissonZipRow, poissonPointRow]
  rw [if_pos hb]
  rfl

theorem poissonZipRow_interior {n_x n_y : ℕ} (dx dy : ℚ) {i j : ℕ}
    (hb : ¬(i = 0 ∨ i = n_y - 1 ∨ j = 0 ∨ j = n_x - 1)) :
    poissonZipRow n_x n_y dx dy i j =
      [((i : ℤ) * (n_x : ℤ) + (j : ℤ),
        (i : ℤ) * (n_x : ℤ) + (j : ℤ) - (n_x : ℤ), 1 / dy ^ 2),
       ((i : ℤ) * (n_x : ℤ) + (j : ℤ),
        (i : ℤ) * (n_x : ℤ) + (j : ℤ) - 1, 1 / dx ^ 2),
       ((i : ℤ) * (n_x : ℤ) + (j : ℤ),
        (i : ℤ) * (n_x : ℤ) + (j : ℤ),
        -2 / dx ^ 2 - 2 / dy ^ 2),
       ((i : ℤ) * (n_x : ℤ) + (j : ℤ),
        (i : ℤ) * (n_x : ℤ) + (j : ℤ) + 1, 1 / dx ^ 2),
       ((i : ℤ) * (n_x : ℤ) + (j : ℤ),
        (i : ℤ) * (n_x : ℤ) + (j : ℤ) + (n_x : ℤ), 1 / dy ^ 2)] := by
  rw [poissonZipRow, poissonPointRow]
  rw [if_neg hb]
  rfl

theorem poissonZipRow_fst {n_x n_y : ℕ} {dx dy : ℚ} {i j : ℕ}
    {t : ℤ × ℤ × ℚ} (ht : t ∈ poissonZipRow n_x n_y dx dy i j) :
    t.1 = (i : ℤ) * (n_x : ℤ) + (j : ℤ) := by
  by_cases hb : i = 0 ∨ i = n_y - 1 ∨ j = 0 ∨ j = n_x - 1
  · rw [poissonZipRow_boundary dx dy hb] at ht
    rw [List.mem_singleton] at ht
    rw [ht]
  · rw [poissonZipRow_interior dx dy hb] at ht
    simp only [List.mem_cons, List.not_mem_nil, or_false] at ht
    rcases ht with rfl | rfl | rfl | rfl | rfl
    all_goals rfl

theorem foldl_update_not_mem (key : ℕ × ℕ → ℤ) (val : ℕ × ℕ → ℚ) :
    ∀ (l : List (ℕ × ℕ)) (b0 : ℤ → ℚ) (k : ℤ), (∀ p ∈ l, key p ≠ k) →
      l.foldl (fun bacc p => Function.update bacc (key p) (val p)) b0 k =
        b0 k := by
  intro l
  induction l with
  | nil =>
    intro b0 k _
    rfl
  | cons p l ih =>
    intro b0 k h
    rw [List.foldl_cons,
      ih _ k (fun q hq => h q (List.mem_cons_of_mem p hq))]
    exact Function.update_noteq
      (Ne.symm (h p (List.mem_cons_self p l))) _ _

theorem foldl_update_mem (key : ℕ × ℕ → ℤ) (val : ℕ × ℕ → ℚ) :
    ∀ (l : List (ℕ × ℕ)) (b0 : ℤ → ℚ) (t : ℕ × ℕ), t ∈ l →
      (l.map key).Nodup →
      l.foldl (fun bacc p => Function.update bacc (key p) (val p)) b0
        (key t) = val t := by
  intro l
  induction l with
  | nil =>
    intro b0 t ht _
    cases ht
  | cons p l ih =>
    intro b0 t ht hnd
    rw [List.map_cons, List.nodup_cons] at hnd
    rw [List.foldl_cons]
    rcases List.mem_cons.mp ht with hte | hmem
    · subst hte
      rw [foldl_update_not_mem key val l _ (key t) (fun q hq hEq =>
        hnd.1 (by
          rw [← hEq]
          exact List.mem_map.mpr ⟨q, hq, rfl⟩))]
      exact Function.update_same _ _ _
    · exact ih _ t hmem hnd.2

theorem poissonKeys_nodup (n_x n_y : ℕ) :
    ((poissonPairs n_x n_y).map
      (fun p : ℕ × ℕ => (p.1 : ℤ) * n_x + p.2)).Nodup := by
  refine List.Nodup.map_on ?_ (poissonPairs_nodup n_x n_y)
  intro p hp q hq hEq
  have hp' := mem_poissonPairs.mp hp
  have hq' := mem_poissonPairs.mp hq
  have h := grid_index_inj ⟨by positivity, by exact_mod_cast hp'.2⟩
    ⟨by positivity, by exact_mod_cast hq'.2⟩ hEq
  have e1 : p.1 = q.1 := by exact_mod_cast h.1
  have e2 : p.2 = q.2 := by exact_mod_cast h.2
  exact Prod.ext_iff.mpr ⟨e1, e2⟩

theorem poissonPointRow_lengths (n_x n_y : ℕ) (dx dy : ℚ) (i j : ℕ) :
    (poissonPointRow n_x n_y dx dy i j).1.length =
        (poissonPointRow n_x n_y dx dy i j).2.1.length ∧
      (poissonPointRow n_x n_y dx dy i j).2.1.length =
        (poissonPointRow n_x n_y dx dy i j).2.2.length := by
  by_cases hb : i = 0 ∨ i = n_y - 1 ∨ j = 0 ∨ j = n_x - 1
  · rw [poissonPointRow, if_pos hb]
    exact ⟨rfl, rfl⟩
  · rw [poissonPointRow, if_neg hb]
    exact ⟨rfl, rfl⟩

theorem poissonPointRow_fst_mem {n_x n_y : ℕ} {dx dy : ℚ} {i j : ℕ} {r : ℤ}
    (hr : r ∈ (poissonPointRow n_x n_y dx dy i j).1) :
    r = (i : ℤ) * n_x + j := by
  by_cases hb : i = 0 ∨ i = n_y - 1 ∨ j = 0 ∨ j = n_x - 1
  · rw [poissonPointRow, if_pos hb] at hr
    simpa using hr
  · rw [poissonPointRow, if_neg hb] at hr
    have h : r = (i : ℤ) * n_x + j ∨ r = (i : ℤ) * n_x + j ∨
        r = (i : ℤ) * n_x + j ∨ r = (i : ℤ) * n_x + j ∨
        r = (i : ℤ) * n_x + j := by
      simpa using hr
    tauto

theorem poissonPointRow_cols_mem {n_x n_y : ℕ} {dx dy : ℚ} {i j : ℕ}
    {c : ℤ} (hi : i < n_y) (hj : j < n_x)
    (hc : c ∈ (poissonPointRow n_x n_y dx dy i j).2.1) :
    0 ≤ c ∧ c < (n_x : ℤ) * n_y := by
  have hk := grid_k_bounds hi hj
  by_cases hb : i = 0 ∨ i = n_y - 1 ∨ j = 0 ∨ j = n_x - 1
  · rw [poissonPointRow, if_pos hb] at hc
    have h : c = (i : ℤ) * n_x + j := by simpa using hc
    rw [h]
    exact hk
  · rw [poissonPointRow, if_neg hb] at hc
    obtain ⟨h1, h2, h3, h4, hx3, hy3⟩ := interior_nat_bounds hi hj hb
    have hcb := interior_col_bounds h1 h2 h3 h4 hx3 hy3
    have hx3' : (3 : ℤ) ≤ (n_x : ℤ) := by exact_mod_cast hx3
    have h : c = (i : ℤ) * n_x + j - n_x ∨ c = (i : ℤ) * n_x + j - 1 ∨
        c = (i : ℤ) * n_x + j ∨ c = (i : ℤ) * n_x + j + 1 ∨
        c = (i : ℤ) * n_x + j + n_x := by
      simpa using hc
    rcases h with h | h | h | h | h
    all_goals rw [h]
    all_goals exact ⟨by linarith [hcb.1, hk.1], by linarith [hcb.2, hk.2]⟩

theorem fivePointEntry (k nx : ℤ) (vd vx vc : ℚ) (hnx : 3 ≤ nx) (c : ℤ) :
    cooEntry [(k, k - nx, vd), (k, k - 1, vx), (k, k, vc), (k, k + 1, vx),
        (k, k + nx, vd)] k c =
      (if c = k - nx then vd else if c = k - 1 then vx
       else if c = k then vc else if c = k + 1 then vx
       else if c = k + nx then vd else 0) := by
  simp only [cooEntry, List.map_cons, List.map_nil, List.sum_cons,
    List.sum_nil, true_and]
  by_cases h1 : c = k - nx
  · rw [if_pos (show k - nx = c from h1.symm),
      if_neg (show ¬k - 1 = c from by omega),
      if_neg (show ¬k = c from by omega),
      if_neg (show ¬k + 1 = c from by omega),
      if_neg (show ¬k + nx = c from by omega),
      if_pos h1]
    ring
  by_cases h2 : c = k - 1
  · rw [if_neg (show ¬k - nx = c from by omega),
      if_pos (show k - 1 = c from h2.symm),
      if_neg (show ¬k = c from by omega),
      if_neg (show ¬k + 1 = c from by omega),
      if_neg (show ¬k + nx = c from by omega),
      if_neg h1, if_pos h2]
    ring
  by_cases h3 : c = k
  · rw [if_neg (show ¬k - nx = c from by omega),
      if_neg (show ¬k - 1 = c from by omega),
      if_pos (show k = c from h3.symm),
      if_neg (show ¬k + 1 = c from by omega),
      if_neg (show ¬k + nx = c from by omega),
      if_neg h1, if_neg h2, if_pos h3]
    ring
  by_cases h4 : c = k + 1
  · rw [if_neg (show ¬k - nx = c from by omega),
      if_neg (show ¬k - 1 = c from by omega),
      if_neg (show ¬k = c from by omega),
      if_pos (show k + 1 = c from h4.symm),
      if_neg (show ¬k + nx = c from by omega),
      if_neg h1, if_neg h2, if_neg h3, if_pos h4]
    ring
  by_cases h5 : c = k + nx
  · rw [if_neg (show ¬k - nx = c from by omega),
      if_neg (show ¬k - 1 = c from by omega),
      if_neg (show ¬k = c from by omega),
      if_neg (show ¬k + 1 = c from by omega),
      if_pos (show k + nx = c from h5.symm),
      if_neg h1, if_neg h2, if_neg h3, if_neg h4, if_pos h5]
    ring
  · rw [if_neg (show ¬k - nx = c from by omega),
      if_neg (show ¬k - 1 = c from by omega),
      if_neg (show ¬k = c from by omega),
      if_neg (show ¬k + 1 = c from by omega),
      if_neg (show ¬k + nx = c from by omega),
      if_neg h1, if_neg h2, if_neg h3, if_neg h4, if_neg h5]
    ring

/-- Isolating one grid point's contribution: the `(k, c)` entry of the full
triple list equals the `(k, c)` entry of point `(i, j)`'s own block, where
`k = i*n_x + j`. -/
theorem poissonTriples_entry (n_x n_y : ℕ) (dx dy : ℚ) {i j : ℕ}
    (hi : i < n_y) (hj : j < n_x) (c : ℤ) :
    cooEntry (poissonTriples n_x n_y dx dy) ((i : ℤ) * n_x + j) c =
      cooEntry (poissonZipRow n_x n_y dx dy i j) ((i : ℤ) * n_x + j) c := by
  rw [poissonTriples, cooEntry_flatten, List.map_map]
  have hmem : ((i, j) : ℕ × ℕ) ∈ poissonPairs n_x n_y :=
    mem_poissonPairs.mpr ⟨hi, hj⟩
  refine sum_map_single (poissonPairs_nodup n_x n_y) hmem _ ?_
  intro p hp hne
  show cooEntry (poissonZipRow n_x n_y dx dy p.1 p.2) ((i : ℤ) * n_x + j) c
    = 0
  refine cooEntry_of_ne_row ?_ c
  intro t ht
  rw [poissonZipRow_fst ht]
  intro hEq
  have hp' := mem_poissonPairs.mp hp
  have hpb : (0 : ℤ) ≤ (p.2 : ℤ) ∧ (p.2 : ℤ) < (n_x : ℤ) :=
    ⟨by positivity, by exact_mod_cast hp'.2⟩
  have hjb : (0 : ℤ) ≤ (j : ℤ) ∧ (j : ℤ) < (n_x : ℤ) :=
    ⟨by positivity, by exact_mod_cast hj⟩
  have h := grid_index_inj hpb hjb hEq
  refine hne ?_
  have e1 : p.1 = i := by exact_mod_cast h.1
  have e2 : p.2 = j := by exact_mod_cast h.2
  exact Prod.ext_iff.mpr ⟨e1, e2⟩

/-- Row-sum analogue of `poissonTriples_entry`. -/
theorem poissonTriples_rowSum (n_x n_y : ℕ) (dx dy : ℚ) {i j : ℕ}
    (hi : i < n_y) (hj : j < n_x) :
    cooRowSum (poissonTriples n_x n_y dx dy) ((i : ℤ) * n_x + j) =
      cooRowSum (poissonZipRow n_x n_y dx dy i j) ((i : ℤ) * n_x + j) := by
  rw [poissonTriples, cooRowSum_flatten, List.map_map]
  have hmem : ((i, j) : ℕ × ℕ) ∈ poissonPairs n_x n_y :=
    mem_poissonPairs.mpr ⟨hi, hj⟩
  refine sum_map_single (poissonPairs_nodup n_x n_y) hmem _ ?_
  intro p hp hne
  show cooRowSum (poissonZipRow n_x n_y dx dy p.1 p.2) ((i : ℤ) * n_x + j)
    = 0
  refine cooRowSum_of_ne_row ?_
  intro t ht
  rw [poissonZipRow_fst ht]
  intro hEq
  have hp' := mem_poissonPairs.mp hp
  have hpb : (0 : ℤ) ≤ (p.2 : ℤ) ∧ (p.2 : ℤ) < (n_x : ℤ) :=
    ⟨by positivity, by exact_mod_cast hp'.2⟩
  have hjb : (0 : ℤ) ≤ (j : ℤ) ∧ (j : ℤ) < (n_x : ℤ) :=
    ⟨by positivity, by exact_mod_cast hj⟩
  have h := grid_index_inj hpb hjb hEq
  refine hne ?_
  have e1 : p.1 = i := by exact_mod_cast h.1
  have e2 : p.2 = j := by exact_mod_cast h.2
  exact Prod.ext_iff.mpr ⟨e1, e2⟩

/-- A boundary point's block is the single diagonal unit entry. -/
theorem poissonEntry_boundary {n_x n_y : ℕ} (dx dy : ℚ) {i j : ℕ}
    (hb : i = 0 ∨ i = n_y - 1 ∨ j = 0 ∨ j = n_x - 1) (c : ℤ) :
    cooEntry (poissonZipRow n_x n_y dx dy i j) ((i : ℤ) * n_x + j) c =
      (if c = (i : ℤ) * n_x + j then 1 else 0) := by
  rw [poissonZipRow_boundary dx dy hb]
  simp only [cooEntry, List.map_cons, List.map_nil, List.sum_cons,
    List.sum_nil, true_and, add_zero]
  by_cases hc : c = (i : ℤ) * n_x + j
  · rw [if_pos hc.symm, if_pos hc]
  · rw [if_neg (fun h => hc h.symm), if_neg hc]

/-- An interior point's block carries exactly the 5-point stencil. -/
theorem poissonEntry_interior {n_x n_y : ℕ} (dx dy : ℚ) {i j : ℕ}
    (hi : i < n_y) (hj : j < n_x)
    (hb : ¬(i = 0 ∨ i = n_y - 1 ∨ j = 0 ∨ j = n_x - 1)) (c : ℤ) :
    cooEntry (poissonZipRow n_x n_y dx dy i j) ((i : ℤ) * n_x + j) c =
      (if c = (i : ℤ) * n_x + j - n_x then 1 / dy ^ 2
       else if c = (i : ℤ) * n_x + j - 1 then 1 / dx ^ 2
       else if c = (i : ℤ) * n_x + j then -2 / dx ^ 2 - 2 / dy ^ 2
       else if c = (i : ℤ) * n_x + j + 1 then 1 / dx ^ 2
       else if c = (i : ℤ) * n_x + j + n_x then 1 / dy ^ 2 else 0) := by
  have hx3 : (3 : ℤ) ≤ (n_x : ℤ) := by
    exact_mod_cast (interior_nat_bounds hi hj hb).2.2.2.2.1
  rw [poissonZipRow_interior dx dy hb]
  exact fivePointEntry ((i : ℤ) * n_x + j) (n_x : ℤ) (1 / dy ^ 2)
    (1 / dx ^ 2) (-2 / dx ^ 2 - 2 / dy ^ 2) hx3 c

theorem poissonRowSum_boundary {n_x n_y : ℕ} (dx dy : ℚ) {i j : ℕ}
    (hb : i = 0 ∨ i = n_y - 1 ∨ j = 0 ∨ j = n_x - 1) :
    cooRowSum (poissonZipRow n_x n_y dx dy i j) ((i : ℤ) * n_x + j) = 1 := by
  rw [poissonZipRow_boundary dx dy hb]
  simp [cooRowSum]

theorem poissonRowSum_interior {n_x n_y : ℕ} (dx dy : ℚ) {i j : ℕ}
    (hb : ¬(i = 0 ∨ i = n_y - 1 ∨ j = 0 ∨ j = n_x - 1)) :
    cooRowSum (poissonZipRow n_x n_y dx dy i j) ((i : ℤ) * n_x + j) = 0 := by
  rw [poissonZipRow_interior dx dy hb]
  simp only [cooRowSum, List.map_cons, List.map_nil, List.sum_cons,
    List.sum_nil, if_true]
  ring

/-- The matrix component of the Poisson assembly always succeeds and returns
exactly the flattened per-point blocks. -/
theorem poissonSystem_fst (x_l x_u y_l y_u : ℚ) (n_x n_y : ℕ)
    (sol f : ℚ → ℚ → ℚ) :
    (poissonSystem x_l x_u y_l y_u n_x n_y sol f).1 =
      some (poissonTriples n_x n_y ((x_u - x_l) / ((n_x : ℚ) - 1))
        ((y_u - y_l) / ((n_y : ℚ) - 1))) := by
  set dx := (x_u - x_l) / ((n_x : ℚ) - 1) with hdx
  set dy := (y_u - y_l) / ((n_y : ℚ) - 1) with hdy
  set rows := (poissonPairs n_x n_y).map
    (fun ij => poissonPointRow n_x n_y dx dy ij.1 ij.2) with hrows
  have hlens : ∀ r ∈ rows, r.1.length = r.2.1.length ∧
      r.2.1.length = r.2.2.length := by
    intro r hr
    obtain ⟨p, _, rfl⟩ := List.mem_map.mp (hrows ▸ hr)
    exact poissonPointRow_lengths n_x n_y dx dy p.1 p.2
  show cooCtorShape ((n_x : ℤ) * n_y) ((rows.map (fun r => r.2.2)).flatten)
      ((rows.map (fun r => r.1)).flatten)
      ((rows.map (fun r => r.2.1)).flatten) = _
  rw [cooCtorShape_pos ⟨by
      refine length_flatten_congr rows _ _ ?_
      intro r hr
      rw [(hlens r hr).1, (hlens r hr).2], by
      refine length_flatten_congr rows _ _ ?_
      intro r hr
      rw [(hlens r hr).1], by
      intro r hr
      obtain ⟨blk, hblk, hrblk⟩ := mem_flatten_map hr
      obtain ⟨p, hp, rfl⟩ := List.mem_map.mp (hrows ▸ hblk)
      have hp' := mem_poissonPairs.mp hp
      rw [poissonPointRow_fst_mem hrblk]
      exact grid_k_bounds hp'.1 hp'.2, by
      intro c hc
      obtain ⟨blk, hblk, hcblk⟩ := mem_flatten_map hc
      obtain ⟨p, hp, rfl⟩ := List.mem_map.mp (hrows ▸ hblk)
      have hp' := mem_poissonPairs.mp hp
      exact poissonPointRow_cols_mem hp'.1 hp'.2 hcblk⟩,
    zip_flatten_blocks rows hlens, hrows, List.map_map]
  rfl

/-- The right-hand-side vector of the Poisson assembly at grid point
`(i, j)`: the boundary value for boundary points, the source term for
interior points. -/
theorem poissonSystem_b (x_l x_u y_l y_u : ℚ) (n_x n_y : ℕ)
    (sol f : ℚ → ℚ → ℚ) {i j : ℕ} (hi : i < n_y) (hj : j < n_x) :
    (poissonSystem x_l x_u y_l y_u n_x n_y sol f).2 ((i : ℤ) * n_x + j) =
      (if i = 0 ∨ i = n_y - 1 ∨ j = 0 ∨ j = n_x - 1 then
        sol (x_l + j * ((x_u - x_l) / ((n_x : ℚ) - 1)))
          (y_l + i * ((y_u - y_l) / ((n_y : ℚ) - 1)))
      else f (x_l + j * ((x_u - x_l) / ((n_x : ℚ) - 1)))
        (y_l + i * ((y_u - y_l) / ((n_y : ℚ) - 1)))) :=
  foldl_update_mem (fun p => (p.1 : ℤ) * n_x + p.2)
    (fun p => if p.1 = 0 ∨ p.1 = n_y - 1 ∨ p.2 = 0 ∨ p.2 = n_x - 1 then
        sol (x_l + p.2 * ((x_u - x_l) / ((n_x : ℚ) - 1)))
          (y_l + p.1 * ((y_u - y_l) / ((n_y : ℚ) - 1)))
      else f (x_l + p.2 * ((x_u - x_l) / ((n_x : ℚ) - 1)))
        (y_l + p.1 * ((y_u - y_l) / ((n_y : ℚ) - 1))))
    (poissonPairs n_x n_y) (fun _ => 0) (i, j)
    (mem_poissonPairs.mpr ⟨hi, hj⟩) (poissonKeys_nodup n_x n_y)

/-- Every stored column index of the assembled Poisson matrix lies inside
the declared `n_x·n_y` shape. -/
theorem poissonTriples_cols {n_x n_y : ℕ} {dx dy : ℚ} {t : ℤ × ℤ × ℚ}
    (ht : t ∈ poissonTriples n_x n_y dx dy) :
    0 ≤ t.2.1 ∧ t.2.1 < (n_x : ℤ) * n_y := by
  rw [poissonTriples] at ht
  obtain ⟨p, hp, htp⟩ := mem_flatten_map ht
  have hp' := mem_poissonPairs.mp hp
  have hc : t.2.1 ∈ (poissonPointRow n_x n_y dx dy p.1 p.2).2.1 := by
    rw [poissonZipRow] at htp
    exact (List.of_mem_zip (List.of_mem_zip htp).2).1
  exact poissonPointRow_cols_mem hp'.1 hp'.2 hc

/-! ### Claim theorems -/

/-- **C1**: for every derivative order `d ≥ 0`, evaluation point `x0`, and
set of `m = 2w+1` distinct node locations with `d ≤ m-1`, the coefficient
vector `c` returned by `fd_coeff(d, x0, nodes)` satisfies: for every
polynomial `p` of degree `≤ m-1`, `Σᵢ cᵢ·p(nodesᵢ) = p⁽ᵈ⁾(x0)` exactly —
in particular all monomials up to degree `2w` are differentiated exactly —
including for non-uniformly spaced nodes. -/
theorem C1_fd_coeff_exact_on_polynomials (d w : ℕ) (x0 : ℚ) (xs : List ℚ)
    (hnd : xs.Nodup) (hm : xs.length = 2 * w + 1) (hd : d ≤ xs.length - 1)
    (c : List ℚ) (hc : fd_coeff d x0 xs = some c) (p : Polynomial ℚ)
    (hp : p.natDegree ≤ xs.length - 1) :
    ∑ i ∈ Finset.range xs.length, c.getD i 0 * p.eval (xs.getD i 0) =
      (Polynomial.derivative^[d] p).eval x0 := by
  refine fd_coeff_exact hnd hc p ?_
  have h1 := degree_lt_of_natDegree_le p _ hp
  rwa [show xs.length - 1 + 1 = xs.length from by omega] at h1

/-- Witness for C1 at `d = 1`, `w = 1`, `x0 = 0`, nodes `[0, 1, 2]`,
`p = X²`. -/
theorem C1_fd_coeff_exact_on_polynomials_witness :
    ([0, 1, 2] : List ℚ).Nodup ∧
    ([0, 1, 2] : List ℚ).length = 2 * 1 + 1 ∧
    1 ≤ ([0, 1, 2] : List ℚ).length - 1 ∧
    fd_coeff 1 0 [0, 1, 2] = some [-(3 / 2), 2, -(1 / 2)] ∧
    (Polynomial.X ^ 2 : Polynomial ℚ).natDegree ≤
      ([0, 1, 2] : List ℚ).length - 1 ∧
    ∑ i ∈ Finset.range ([0, 1, 2] : List ℚ).length,
      ([-(3 / 2), 2, -(1 / 2)] : List ℚ).getD i 0 *
        (Polynomial.X ^ 2 : Polynomial ℚ).eval
          (([0, 1, 2] : List ℚ).getD i 0) =
      (Polynomial.derivative^[1] (Polynomial.X ^ 2 : Polynomial ℚ)).eval 0 :=
  have h1 : ([0, 1, 2] : List ℚ).Nodup := by norm_num
  have h2 : ([0, 1, 2] : List ℚ).length = 2 * 1 + 1 := by norm_num
  have h3 : 1 ≤ ([0, 1, 2] : List ℚ).length - 1 := by norm_num
  have h4 : fd_coeff 1 0 [0, 1, 2] = some [-(3 / 2), 2, -(1 / 2)] := by
    norm_num [fd_coeff, lagBasisList, lagDenom, prodLin, polyScale, polyMul,
      polyAdd, polyDeriv, polyEval, List.eraseIdx, List.range_succ]
  have h5 : (Polynomial.X ^ 2 : Polynomial ℚ).natDegree ≤
      ([0, 1, 2] : List ℚ).length - 1 := by simp
  ⟨h1, h2, h3, h4, h5,
    C1_fd_coeff_exact_on_polynomials 1 1 0 [0, 1, 2] h1 h2 h3 _ h4 _ h5⟩

/-- **C2**: for every grid `x` of `n ≥ 2w+1` distinct points and every
interior index `i` with at least `w` neighbors on each side
(`w ≤ i ≤ n-1-w`), row `i` of the matrix returned by
`first_deriv_matrix(x, w)` has its entries exactly at columns `i-w..i+w`,
with values equal to the centered-stencil coefficients
`fd_coeff(1, x[i], x[i-w:i+w+1])`, and is zero outside that band. -/
theorem C2_interior_rows_centered (x : List ℚ) (w : ℕ) (hx : x.Nodup)
    (hw : 1 ≤ w) (hn : 2 * w + 1 ≤ x.length) (M : List (ℤ × ℤ × ℚ))
    (hM : first_deriv_matrix x w = some M) (i : ℤ)
    (hi : (w : ℤ) ≤ i ∧ i ≤ (x.length : ℤ) - (w : ℤ) - 1) :
    (fd_coeff 1 ((pyGet x i).getD 0)
      (pySlice x (i - (w : ℤ)) (i + (w : ℤ) + 1))).isSome ∧
    (∀ t : ℕ, t < 2 * w + 1 →
      cooEntry M i (i - (w : ℤ) + t) =
        (stencilCoeff x i
          (pySlice x (i - (w : ℤ)) (i + (w : ℤ) + 1))).getD t 0) ∧
    (∀ c : ℤ, c < i - (w : ℤ) ∨ i + (w : ℤ) < c → cooEntry M i c = 0) := by
  rw [first_deriv_matrix_eq hx hw hn] at hM
  cases hM
  have hslice : (pySlice x (i - (w : ℤ)) (i + (w : ℤ) + 1)).length =
      2 * w + 1 := by
    rw [length_pySlice_of_bounds (by omega) (by omega) (by omega)]
    omega
  have hsome := stencil_isSome hx (i := i)
    (pySlice_sublist x (i - (w : ℤ)) (i + (w : ℤ) + 1))
    (by rw [hslice]; omega)
  have hE : ∀ c : ℤ, cooEntry (fdmBlocks x w).flatten i c =
      (((pyRange (i - (w : ℤ)) (i + (w : ℤ) + 1)).zip
        (stencilCoeff x i
          (pySlice x (i - (w : ℤ)) (i + (w : ℤ) + 1)))).map
          (fun cv => if cv.1 = c then cv.2 else 0)).sum := by
    intro c
    rcases lt_or_ge i ((x.length : ℤ) - (w : ℤ) - 1) with hlt | hge
    · exact fdm_entry_center hw hn ⟨hi.1, hlt⟩ c
    · have hieq : i = (x.length : ℤ) - (w : ℤ) - 1 := le_antisymm hi.2 hge
      have h1 : (x.length : ℤ) - ((2 * w + 1 : ℕ) : ℤ) = i - (w : ℤ) := by
        omega
      have h2 : (x.length : ℤ) = i + (w : ℤ) + 1 := by
        omega
      have hout := fdm_entry_left hw hn
        (i := i) ⟨hge, by omega⟩ c
      rw [h1] at hout
      nth_rewrite 2 [h2] at hout
      nth_rewrite 1 [h2] at hout
      exact hout
  refine ⟨hsome, ?_, ?_⟩
  · intro t ht
    rw [hE]
    have hco : (pyRange (i - (w : ℤ)) (i + (w : ℤ) + 1)).getD t 0 =
        i - (w : ℤ) + t := by
      rw [List.getD_eq_getElem _ _ (by rw [length_pyRange]; omega),
        getElem_pyRange]
    rw [← hco, zipSum_getD (pyRange_nodup _ _) (by
      rw [length_stencilCoeff hx (pySlice_sublist _ _ _)
        (by rw [hslice]; omega), hslice, length_pyRange]
      omega) (by rw [length_pyRange]; omega)]
  · intro c hc
    rw [hE]
    refine zipSum_of_not_mem _ ?_
    intro hmem
    have := mem_pyRange.mp hmem
    omega

/-- Witness for C2 at `x = [0, 1, 2]`, `w = 1`, interior row `i = 1`. -/
theorem C2_interior_rows_centered_witness :
    ([0, 1, 2] : List ℚ).Nodup ∧ 1 ≤ 1 ∧
    2 * 1 + 1 ≤ ([0, 1, 2] : List ℚ).length ∧
    first_deriv_matrix [0, 1, 2] 1 =
      some (fdmBlocks [0, 1, 2] 1).flatten ∧
    ((1 : ℕ) ≤ (1 : ℤ) ∧ (1 : ℤ) ≤ (([0, 1, 2] : List ℚ).length : ℤ) -
      (1 : ℕ) - 1) ∧
    (∀ t : ℕ, t < 2 * 1 + 1 →
      cooEntry (fdmBlocks [0, 1, 2] 1).flatten 1 (1 - ((1 : ℕ) : ℤ) + t) =
        (stencilCoeff [0, 1, 2] 1
          (pySlice [0, 1, 2] (1 - ((1 : ℕ) : ℤ))
            (1 + ((1 : ℕ) : ℤ) + 1))).getD t 0) :=
  have hx : ([0, 1, 2] : List ℚ).Nodup := by norm_num
  have hn : 2 * 1 + 1 ≤ ([0, 1, 2] : List ℚ).length := by norm_num
  have hM : first_deriv_matrix [0, 1, 2] 1 =
      some (fdmBlocks [0, 1, 2] 1).flatten :=
    first_deriv_matrix_eq hx (le_refl 1) hn
  have hi : ((1 : ℕ) : ℤ) ≤ (1 : ℤ) ∧
      (1 : ℤ) ≤ (([0, 1, 2] : List ℚ).length : ℤ) - (1 : ℕ) - 1 := by
    norm_num
  ⟨hx, le_refl 1, hn, hM, hi,
    (C2_interior_rows_centered [0, 1, 2] 1 hx (le_refl 1) hn _ hM 1
      hi).2.1⟩

/-- **C5**: for every half-width `w ≥ 1`, grid size `n`, spacing `dx > 0`,
and constant `cst`, the periodic operator `first_deriv_matrix_per(n, dx, w)`
applied to the constant vector `(cst, …, cst)` returns the zero vector. -/
theorem C5_periodic_constant_vector (n w : ℕ) (dx : ℚ) (hw : 1 ≤ w)
    (hdx : 0 < dx) (cst : ℚ) (M : List (ℤ × ℤ × ℚ))
    (hM : first_deriv_matrix_per n dx w = some M) (i : ℤ)
    (hi : 0 ≤ i ∧ i < (n : ℤ)) :
    matVec M (n : ℤ) (fun _ => cst) i = 0 := by
  have hdx0 : dx ≠ 0 := ne_of_gt hdx
  have hn : 1 ≤ n := by
    rcases Nat.eq_zero_or_pos n with rfl | h
    · have h2 := hi.2
      rw [Nat.cast_zero] at h2
      omega
    · exact h
  rw [first_deriv_matrix_per_eq hdx0 hw hn] at hM
  cases hM
  rw [matVec_const _ _ _ _
    (fun t ht _ => perCols_mem_bounds hn (perTriples_mem ht).2)]
  rw [perTriples_rowSum hdx0 hw hi, perCoeff_sum_zero hdx0 hw, zero_mul]

/-- Witness for C5 at `n = 5`, `w = 1`, `dx = 1`, `cst = 3`, row `i = 2`. -/
theorem C5_periodic_constant_vector_witness :
    1 ≤ 1 ∧ (0 : ℚ) < 1 ∧
    first_deriv_matrix_per 5 1 1 = some (perTriples 5 1 1) ∧
    ((0 : ℤ) ≤ 2 ∧ (2 : ℤ) < ((5 : ℕ) : ℤ)) ∧
    matVec (perTriples 5 1 1) ((5 : ℕ) : ℤ) (fun _ => 3) 2 = 0 :=
  have hM : first_deriv_matrix_per 5 1 1 = some (perTriples 5 1 1) :=
    first_deriv_matrix_per_eq (by norm_num) (le_refl 1) (by norm_num)
  have hi : (0 : ℤ) ≤ 2 ∧ (2 : ℤ) < ((5 : ℕ) : ℤ) := by norm_num
  ⟨le_refl 1, by norm_num, hM, hi,
    C5_periodic_constant_vector 5 1 1 (le_refl 1) (by norm_num) 3 _ hM 2 hi⟩

/-- **C6 counterexample**: the claim states that the operator builders fail
fast and do not return a matrix when the grid has fewer than `2w+1` points;
but `first_deriv_matrix_per(2, 1, 1)` (grid of `n = 2 < 3 = 2w+1` points)
returns a matrix without reporting any error. -/
theorem C6_counterexample_periodic_returns :
    2 < 2 * 1 + 1 ∧
    first_deriv_matrix_per 2 1 1 = some (perTriples 2 1 1) :=
  ⟨by norm_num,
   first_deriv_matrix_per_eq (by norm_num) (le_refl 1) (by norm_num)⟩

/-- **C6 (amended)**: `first_deriv_matrix(x, w)` (the non-periodic builder)
indeed never returns a matrix when the grid has fewer than `2w+1` points
(for `w ≥ 1`): the computation aborts — though through an index error, a
failed coefficient computation, or the sparse constructor's array-length
check, not through an explicit parameter validation; the periodic builder
`first_deriv_matrix_per` performs no such check and returns a matrix even
when `n < 2w+1`. -/
theorem C6_short_grid_failure (x : List ℚ) (w : ℕ) (hw : 1 ≤ w)
    (hn : x.length < 2 * w + 1) : first_deriv_matrix x w = none :=
  first_deriv_matrix_none hw hn

/-- Witness for C6 (amended) at `x = [0, 1]`, `w = 1`. -/
theorem C6_short_grid_failure_witness :
    1 ≤ 1 ∧ ([0, 1] : List ℚ).length < 2 * 1 + 1 ∧
    first_deriv_matrix [0, 1] 1 = none :=
  ⟨le_refl 1, by norm_num,
   C6_short_grid_failure [0, 1] 1 (le_refl 1) (by norm_num)⟩

/-- **C7**: for every uniform grid with spacing `dx > 0` and half-width
`w = 1`, every interior row of the assembled first-derivative operator has
the coefficient pattern `[-1/(2·dx), 0, 1/(2·dx)]` on its three stencil
columns (the second-order central difference). -/
theorem C7_uniform_w1_central_difference (a dx : ℚ) (n : ℕ) (hdx : 0 < dx)
    (hn : 3 ≤ n) (M : List (ℤ × ℤ × ℚ))
    (hM : first_deriv_matrix (uniformGrid a dx n) 1 = some M)
    (i : ℤ) (hi : 1 ≤ i ∧ i ≤ (n : ℤ) - 2) :
    cooEntry M i (i - 1) = -(1 / (2 * dx)) ∧
    cooEntry M i i = 0 ∧
    cooEntry M i (i + 1) = 1 / (2 * dx) := by
  have hdx0 : dx ≠ 0 := ne_of_gt hdx
  have hx := uniformGrid_nodup a hdx0 n
  have hlen := length_uniformGrid a dx n
  have hn' : 2 * 1 + 1 ≤ (uniformGrid a dx n).length := by
    rw [hlen]
    omega
  rw [first_deriv_matrix_eq hx (le_refl 1) hn'] at hM
  cases hM
  have hi' : ((1 : ℕ) : ℤ) ≤ i ∧
      i ≤ ((uniformGrid a dx n).length : ℤ) - ((1 : ℕ) : ℤ) - 1 := by
    rw [hlen, Nat.cast_one]
    omega
  have hsc : stencilCoeff (uniformGrid a dx n) i
      (pySlice (uniformGrid a dx n) (i - ((1 : ℕ) : ℤ))
        (i + ((1 : ℕ) : ℤ) + 1)) =
      [-(1 / (2 * dx)), 0, 1 / (2 * dx)] := by
    rw [stencilCoeff, pyGet_uniformGrid (by rw [hlen]; omega), Nat.cast_one,
      pySlice_uniformGrid hi,
      show a + ((i : ℚ) - 1) * dx = (a + (i : ℚ) * dx) - dx from by ring,
      show a + ((i : ℚ) + 1) * dx = (a + (i : ℚ) * dx) + dx from by ring,
      fd_coeff_central_w1 _ hdx0, Option.getD_some]
  have hband := fun (t : ℕ) (ht : t < 2 * 1 + 1) =>
    fdm_entry_interior_band hx (le_refl 1) hn' (i := i) hi' ht
  have h0 := hband 0 (by norm_num)
  have h1 := hband 1 (by norm_num)
  have h2 := hband 2 (by norm_num)
  rw [hsc, show i - ((1 : ℕ) : ℤ) + ((0 : ℕ) : ℤ) = i - 1 from by
    push_cast; ring] at h0
  rw [hsc, show i - ((1 : ℕ) : ℤ) + ((1 : ℕ) : ℤ) = i from by
    push_cast; ring] at h1
  rw [hsc, show i - ((1 : ℕ) : ℤ) + ((2 : ℕ) : ℤ) = i + 1 from by
    push_cast; ring] at h2
  exact ⟨h0, h1, h2⟩

/-- Witness for C7 at `a = 0`, `dx = 1`, `n = 3`, interior row `i = 1`. -/
theorem C7_uniform_w1_central_difference_witness :
    (0 : ℚ) < 1 ∧ 3 ≤ 3 ∧
    first_deriv_matrix (uniformGrid 0 1 3) 1 =
      some (fdmBlocks (uniformGrid 0 1 3) 1).flatten ∧
    ((1 : ℤ) ≤ 1 ∧ (1 : ℤ) ≤ ((3 : ℕ) : ℤ) - 2) ∧
    cooEntry (fdmBlocks (uniformGrid 0 1 3) 1).flatten 1 (1 - 1) =
      -(1 / (2 * (1 : ℚ))) :=
  have hx : (uniformGrid 0 1 3).Nodup :=
    uniformGrid_nodup 0 (by norm_num) 3
  have hn' : 2 * 1 + 1 ≤ (uniformGrid 0 1 3).length := by
    rw [length_uniformGrid]
  have hM : first_deriv_matrix (uniformGrid 0 1 3) 1 =
      some (fdmBlocks (uniformGrid 0 1 3) 1).flatten :=
    first_deriv_matrix_eq hx (le_refl 1) hn'
  have hi : (1 : ℤ) ≤ 1 ∧ (1 : ℤ) ≤ ((3 : ℕ) : ℤ) - 2 := by norm_num
  ⟨by norm_num, le_refl 3, hM, hi,
    (C7_uniform_w1_central_difference 0 1 3 (by norm_num) (le_refl 3) _
      hM 1 hi).1⟩

/-- **C8**: for every `n ≥ 2w+1`, `dx > 0` and `w ≥ 1`, every row `i` of
`first_deriv_matrix_per(n, dx, w)` places the single centered coefficient
vector `c = fd_coeff(1, 0, dx*(-w..w))` at the wrapped columns
`(i+k) mod n` for `k = -w..w` (and is zero at all other columns, with no
boundary biasing); the operator is circulant and commutes with the cyclic
shift of vectors. -/
theorem C8_periodic_circulant (n w : ℕ) (dx : ℚ) (hw : 1 ≤ w)
    (hn : 2 * w + 1 ≤ n) (hdx : 0 < dx) (M : List (ℤ × ℤ × ℚ))
    (hM : first_deriv_matrix_per n dx w = some M) :
    fd_coeff 1 0 (perNodes dx w) = some (perCoeff dx w) ∧
    (∀ i : ℤ, 0 ≤ i ∧ i < (n : ℤ) → ∀ k : ℤ, -(w : ℤ) ≤ k ∧ k ≤ (w : ℤ) →
      cooEntry M i ((i + k) % (n : ℤ)) =
        (perCoeff dx w).getD (k + (w : ℤ)).toNat 0) ∧
    (∀ i c : ℤ, 0 ≤ i ∧ i < (n : ℤ) → c ∉ perCols n w i →
      cooEntry M i c = 0) ∧
    (∀ i j : ℤ, 0 ≤ i ∧ i < (n : ℤ) → 0 ≤ j ∧ j < (n : ℤ) →
      cooEntry M ((i + 1) % (n : ℤ)) ((j + 1) % (n : ℤ)) =
        cooEntry M i j) ∧
    (∀ v : ℤ → ℚ, ∀ i : ℤ, 0 ≤ i ∧ i < (n : ℤ) →
      matVec M (n : ℤ) (fun j => v ((j + 1) % (n : ℤ))) i =
        matVec M (n : ℤ) v ((i + 1) % (n : ℤ))) := by
  have hdx0 : dx ≠ 0 := ne_of_gt hdx
  have hn1 : 1 ≤ n := by omega
  rw [first_deriv_matrix_per_eq hdx0 hw hn1] at hM
  cases hM
  refine ⟨fd_coeff_perNodes hdx0 hw, ?_, ?_, ?_, ?_⟩
  · intro i hi k hk
    exact perTriples_entry_wrapped hdx0 hw hn hi hk
  · intro i c hi hc
    exact perTriples_entry_off hi hc
  · intro i j hi hj
    exact perTriples_circulant hn1 hi hj
  · intro v i hi
    exact perTriples_shift hn1 v hi

/-- Witness for C8 at `n = 5`, `w = 1`, `dx = 1`, checking the wrapped
entry of row `i = 4`, offset `k = 1` (which wraps to column `0`). -/
theorem C8_periodic_circulant_witness :
    1 ≤ 1 ∧ 2 * 1 + 1 ≤ 5 ∧ (0 : ℚ) < 1 ∧
    first_deriv_matrix_per 5 1 1 = some (perTriples 5 1 1) ∧
    cooEntry (perTriples 5 1 1) 4 ((4 + 1) % ((5 : ℕ) : ℤ)) =
      (perCoeff 1 1).getD ((1 + (1 : ℤ)).toNat) 0 :=
  have hM : first_deriv_matrix_per 5 1 1 = some (perTriples 5 1 1) :=
    first_deriv_matrix_per_eq (by norm_num) (le_refl 1) (by norm_num)
  ⟨le_refl 1, by norm_num, by norm_num, hM,
    (C8_periodic_circulant 5 1 1 (le_refl 1) (by norm_num) (by norm_num) _
      hM).2.1 4 (by norm_num) 1 (by norm_num)⟩

/-- **C10** (implicit): when `n < 2w+1`, `first_deriv_matrix_per(n, dx, w)`
does not report an error: the wrapped column indices `(i+k) mod n` collide
within every row, the sparse constructor sums the colliding coefficients
(the entry at `(i, j)` is the sum over all stencil positions mapping to
`j`), and an `n` × `n` matrix with these summed entries is returned.  For
`n ≥ 2w+1` each row instead has exactly `2w+1` distinct stencil columns. -/
theorem C10_periodic_no_error_collisions (n w : ℕ) (dx : ℚ) (hw : 1 ≤ w)
    (hn : 1 ≤ n) (hdx : 0 < dx) :
    (first_deriv_matrix_per n dx w = some (perTriples n dx w) ∧
      cooShape (perTriples n dx w) = ((n : ℤ), (n : ℤ)) ∧
      (∀ i : ℤ, 0 ≤ i ∧ i < (n : ℤ) → ∀ j : ℤ,
        cooEntry (perTriples n dx w) i j =
          (((perCols n w i).zip (perCoeff dx w)).map
            (fun cv => if cv.1 = j then cv.2 else 0)).sum)) ∧
    (n < 2 * w + 1 → ∀ i : ℤ, ¬(perCols n w i).Nodup) ∧
    (2 * w + 1 ≤ n → ∀ i : ℤ,
      (perCols n w i).Nodup ∧ (perCols n w i).length = 2 * w + 1) := by
  have hdx0 : dx ≠ 0 := ne_of_gt hdx
  refine ⟨⟨first_deriv_matrix_per_eq hdx0 hw hn,
    perTriples_shape hdx0 hw hn, ?_⟩, ?_, ?_⟩
  · intro i hi j
    exact perTriples_entry hi j
  · intro hlt i
    exact perCols_not_nodup hn hlt i
  · intro hge i
    exact ⟨perCols_nodup hge i, length_perCols n w i⟩

/-- Witness for C10 at `n = 2`, `w = 1`, `dx = 1` (a collision case:
`n = 2 < 3 = 2w+1`). -/
theorem C10_periodic_no_error_collisions_witness :
    1 ≤ 1 ∧ 1 ≤ 2 ∧ (0 : ℚ) < 1 ∧
    first_deriv_matrix_per 2 1 1 = some (perTriples 2 1 1) ∧
    ¬(perCols 2 1 0).Nodup :=
  have hC := C10_periodic_no_error_collisions 2 1 1 (le_refl 1)
    (by norm_num) (by norm_num)
  ⟨le_refl 1, by norm_num, by norm_num, hC.1.1, hC.2.1 (by norm_num) 0⟩

/-- **C3**: on the concrete grid `x = [0, 1, …, 9]` with `w = 2` the builder
returns a banded matrix: row `2` carries the 5-point central-difference
coefficients `[1/12, -2/3, 0, 2/3, -1/12]` for spacing `Δx = 1` at columns
`0..4` (and rows `2..7` vanish outside their bands); rows `0` and `1` carry
one-sided 5-point stencil coefficients computed by `fd_coeff` from the node
set `x[0..4] = [0,1,2,3,4]` at columns `0..4` and vanish elsewhere; rows
`8` and `9` carry one-sided coefficients from `x[5..9] = [5,6,7,8,9]` at
columns `5..9` and vanish elsewhere. -/
theorem C3_concrete_grid :
    first_deriv_matrix [0, 1, 2, 3, 4, 5, 6, 7, 8, 9] 2 =
      some (fdmBlocks [0, 1, 2, 3, 4, 5, 6, 7, 8, 9] 2).flatten ∧
    fd_coeff 1 2 [0, 1, 2, 3, 4] =
      some [1 / 12, -(2 / 3), 0, 2 / 3, -(1 / 12)] ∧
    (∀ t : ℕ, t < 5 →
      cooEntry (fdmBlocks [0, 1, 2, 3, 4, 5, 6, 7, 8, 9] 2).flatten 2
        (t : ℤ) =
        ([1 / 12, -(2 / 3), 0, 2 / 3, -(1 / 12)] : List ℚ).getD t 0) ∧
    (∀ i : ℤ, 2 ≤ i ∧ i ≤ 7 → ∀ c : ℤ, c < i - 2 ∨ i + 2 < c →
      cooEntry (fdmBlocks [0, 1, 2, 3, 4, 5, 6, 7, 8, 9] 2).flatten i c
        = 0) ∧
    (∀ i : ℤ, i = 0 ∨ i = 1 →
      (∀ t : ℕ, t < 5 →
        cooEntry (fdmBlocks [0, 1, 2, 3, 4, 5, 6, 7, 8, 9] 2).flatten i
          (t : ℤ) =
          ((fd_coeff 1 ((pyGet [0, 1, 2, 3, 4, 5, 6, 7, 8, 9] i).getD 0)
            [0, 1, 2, 3, 4]).getD []).getD t 0) ∧
      (∀ c : ℤ, c < 0 ∨ 4 < c →
        cooEntry (fdmBlocks [0, 1, 2, 3, 4, 5, 6, 7, 8, 9] 2).flatten i c
          = 0)) ∧
    (∀ i : ℤ, i = 8 ∨ i = 9 →
      (∀ t : ℕ, t < 5 →
        cooEntry (fdmBlocks [0, 1, 2, 3, 4, 5, 6, 7, 8, 9] 2).flatten i
          (5 + (t : ℤ)) =
          ((fd_coeff 1 ((pyGet [0, 1, 2, 3, 4, 5, 6, 7, 8, 9] i).getD 0)
            [5, 6, 7, 8, 9]).getD []).getD t 0) ∧
      (∀ c : ℤ, c < 5 ∨ 9 < c →
        cooEntry (fdmBlocks [0, 1, 2, 3, 4, 5, 6, 7, 8, 9] 2).flatten i c
          = 0)) := by
  have hx : ([0, 1, 2, 3, 4, 5, 6, 7, 8, 9] : List ℚ).Nodup := by norm_num
  have hw : (1 : ℕ) ≤ 2 := by norm_num
  have hn : 2 * 2 + 1 ≤ ([0, 1, 2, 3, 4, 5, 6, 7, 8, 9] : List ℚ).length :=
    by norm_num
  have hF2 : fd_coeff 1 2 [0, 1, 2, 3, 4] =
      some [1 / 12, -(2 / 3), 0, 2 / 3, -(1 / 12)] := by
    norm_num [fd_coeff, lagBasisList, lagDenom, prodLin, polyScale, polyMul,
      polyAdd, polyDeriv, polyEval, List.eraseIdx, List.range_succ]
  refine ⟨first_deriv_matrix_eq hx hw hn, hF2, ?_, ?_, ?_, ?_⟩
  · intro t ht
    have h := fdm_entry_interior_band hx hw hn (i := 2)
      ⟨by norm_num, by norm_num⟩ (t := t) (by omega)
    rw [show (2 : ℤ) - ((2 : ℕ) : ℤ) + (t : ℤ) = (t : ℤ) from by
        push_cast
        ring,
      show (2 : ℤ) - ((2 : ℕ) : ℤ) = 0 from by norm_num,
      show (2 : ℤ) + ((2 : ℕ) : ℤ) + 1 = 5 from by norm_num,
      show pySlice [0, 1, 2, 3, 4, 5, 6, 7, 8, 9] 0 5 = [0, 1, 2, 3, 4]
        from rfl,
      stencilCoeff,
      show pyGet [0, 1, 2, 3, 4, 5, 6, 7, 8, 9] 2 = some 2 from rfl,
      Option.getD_some, hF2, Option.getD_some] at h
    exact h
  · intro i hi c hc
    refine fdm_entry_interior_off hw hn ⟨?_, ?_⟩ (by omega)
    · have h2 : ((2 : ℕ) : ℤ) = 2 := by norm_num
      omega
    · rw [show ((([0, 1, 2, 3, 4, 5, 6, 7, 8, 9] : List ℚ).length : ℤ))
          = 10 from by norm_num]
      have h2 : ((2 : ℕ) : ℤ) = 2 := by norm_num
      omega
  · intro i hi
    have hslice : pySlice [0, 1, 2, 3, 4, 5, 6, 7, 8, 9] 0
        ((2 * 2 + 1 : ℕ) : ℤ) = [0, 1, 2, 3, 4] := rfl
    rcases hi with rfl | rfl
    · have hF0 : fd_coeff 1 0 [0, 1, 2, 3, 4] =
          some [-(25 / 12), 4, -3, 4 / 3, -(1 / 4)] := by
        norm_num [fd_coeff, lagBasisList, lagDenom, prodLin, polyScale,
          polyMul, polyAdd, polyDeriv, polyEval, List.eraseIdx,
          List.range_succ]
      constructor
      · intro t ht
        have h := fdm_entry_right hw hn (i := 0)
          ⟨by norm_num, by norm_num⟩ (t : ℤ)
        rw [hslice, stencilCoeff,
          show pyGet [0, 1, 2, 3, 4, 5, 6, 7, 8, 9] 0 = some 0 from rfl,
          Option.getD_some, hF0, Option.getD_some] at h
        have htl : t < (pyRange 0 ((2 * 2 + 1 : ℕ) : ℤ)).length := by
          rw [length_pyRange]
          norm_num
          omega
        have hcol : (pyRange 0 ((2 * 2 + 1 : ℕ) : ℤ)).getD t 0 = (t : ℤ)
            := by
          rw [List.getD_eq_getElem _ _ htl, getElem_pyRange, zero_add]
        rw [← hcol] at h
        rw [zipSum_getD (pyRange_nodup _ _) (by
          rw [length_pyRange]
          rfl) htl] at h
        rw [hcol] at h
        rw [show pyGet [0, 1, 2, 3, 4, 5, 6, 7, 8, 9] 0 = some 0
            from rfl,
          Option.getD_some, hF0, Option.getD_some]
        exact h
      · intro c hc
        rw [fdm_entry_right hw hn ⟨by norm_num, by norm_num⟩ c]
        refine zipSum_of_not_mem _ ?_
        intro hmem
        have hb := mem_pyRange.mp hmem
        have h5 : ((2 * 2 + 1 : ℕ) : ℤ) = 5 := by norm_num
        omega
    · have hF1 : fd_coeff 1 1 [0, 1, 2, 3, 4] =
          some [-(1 / 4), -(5 / 6), 3 / 2, -(1 / 2), 1 / 12] := by
        norm_num [fd_coeff, lagBasisList, lagDenom, prodLin, polyScale,
          polyMul, polyAdd, polyDeriv, polyEval, List.eraseIdx,
          List.range_succ]
      constructor
      · intro t ht
        have h := fdm_entry_right hw hn (i := 1)
          ⟨by norm_num, by norm_num⟩ (t : ℤ)
        rw [hslice, stencilCoeff,
          show pyGet [0, 1, 2, 3, 4, 5, 6, 7, 8, 9] 1 = some 1 from rfl,
          Option.getD_some, hF1, Option.getD_some] at h
        have htl : t < (pyRange 0 ((2 * 2 + 1 : ℕ) : ℤ)).length := by
          rw [length_pyRange]
          norm_num
          omega
        have hcol : (pyRange 0 ((2 * 2 + 1 : ℕ) : ℤ)).getD t 0 = (t : ℤ)
            := by
          rw [List.getD_eq_getElem _ _ htl, getElem_pyRange, zero_add]
        rw [← hcol] at h
        rw [zipSum_getD (pyRange_nodup _ _) (by
          rw [length_pyRange]
          rfl) htl] at h
        rw [hcol] at h
        rw [show pyGet [0, 1, 2, 3, 4, 5, 6, 7, 8, 9] 1 = some 1
            from rfl,
          Option.getD_some, hF1, Option.getD_some]
        exact h
      · intro c hc
        rw [fdm_entry_right hw hn ⟨by norm_num, by norm_num⟩ c]
        refine zipSum_of_not_mem _ ?_
        intro hmem
        have hb := mem_pyRange.mp hmem
        have h5 : ((2 * 2 + 1 : ℕ) : ℤ) = 5 := by norm_num
        omega
  · intro i hi
    have hL : ((([0, 1, 2, 3, 4, 5, 6, 7, 8, 9] : List ℚ).length : ℤ))
        = 10 := by norm_num
    have h5 : (10 : ℤ) - ((2 * 2 + 1 : ℕ) : ℤ) = 5 := by norm_num
    have hslice : pySlice [0, 1, 2, 3, 4, 5, 6, 7, 8, 9] 5 10 =
        [5, 6, 7, 8, 9] := rfl
    rcases hi with rfl | rfl
    · have hF8 : fd_coeff 1 8 [5, 6, 7, 8, 9] =
          some [-(1 / 12), 1 / 2, -(3 / 2), 5 / 6, 1 / 4] := by
        norm_num [fd_coeff, lagBasisList, lagDenom, prodLin, polyScale,
          polyMul, polyAdd, polyDeriv, polyEval, List.eraseIdx,
          List.range_succ]
      constructor
      · intro t ht
        have h := fdm_entry_left hw hn (i := 8)
          ⟨by rw [hL]; norm_num, by rw [hL]; norm_num⟩ (5 + (t : ℤ))
        rw [hL, h5, hslice, stencilCoeff,
          show pyGet [0, 1, 2, 3, 4, 5, 6, 7, 8, 9] 8 = some 8 from rfl,
          Option.getD_some, hF8, Option.getD_some] at h
        have htl : t < (pyRange 5 10).length := by
          rw [length_pyRange]
          omega
        have hcol : (pyRange 5 10).getD t 0 = 5 + (t : ℤ) := by
          rw [List.getD_eq_getElem _ _ htl, getElem_pyRange]
        rw [← hcol] at h
        rw [zipSum_getD (pyRange_nodup _ _) (by
          rw [length_pyRange]
          rfl) htl] at h
        rw [hcol] at h
        rw [show pyGet [0, 1, 2, 3, 4, 5, 6, 7, 8, 9] 8 = some 8
            from rfl,
          Option.getD_some, hF8, Option.getD_some]
        exact h
      · intro c hc
        have h := fdm_entry_left hw hn (i := 8)
          ⟨by rw [hL]; norm_num, by rw [hL]; norm_num⟩ c
        rw [hL, h5] at h
        rw [h]
        refine zipSum_of_not_mem _ ?_
        intro hmem
        have hb := mem_pyRange.mp hmem
        omega
    · have hF9 : fd_coeff 1 9 [5, 6, 7, 8, 9] =
          some [1 / 4, -(4 / 3), 3, -4, 25 / 12] := by
        norm_num [fd_coeff, lagBasisList, lagDenom, prodLin, polyScale,
          polyMul, polyAdd, polyDeriv, polyEval, List.eraseIdx,
          List.range_succ]
      constructor
      · intro t ht
        have h := fdm_entry_left hw hn (i := 9)
          ⟨by rw [hL]; norm_num, by rw [hL]; norm_num⟩ (5 + (t : ℤ))
        rw [hL, h5, hslice, stencilCoeff,
          show pyGet [0, 1, 2, 3, 4, 5, 6, 7, 8, 9] 9 = some 9 from rfl,
          Option.getD_some, hF9, Option.getD_some] at h
        have htl : t < (pyRange 5 10).length := by
          rw [length_pyRange]
          omega
        have hcol : (pyRange 5 10).getD t 0 = 5 + (t : ℤ) := by
          rw [List.getD_eq_getElem _ _ htl, getElem_pyRange]
        rw [← hcol] at h
        rw [zipSum_getD (pyRange_nodup _ _) (by
          rw [length_pyRange]
          rfl) htl] at h
        rw [hcol] at h
        rw [show pyGet [0, 1, 2, 3, 4, 5, 6, 7, 8, 9] 9 = some 9
            from rfl,
          Option.getD_some, hF9, Option.getD_some]
        exact h
      · intro c hc
        have h := fdm_entry_left hw hn (i := 9)
          ⟨by rw [hL]; norm_num, by rw [hL]; norm_num⟩ c
        rw [hL, h5] at h
        rw [h]
        refine zipSum_of_not_mem _ ?_
        intro hmem
        have hb := mem_pyRange.mp hmem
        omega

/-- **C4**: in the 2-D Poisson assembly over an `n_x × n_y` grid with
flattened index `k = i·n_x + j`: every boundary point (`i = 0`,
`i = n_y-1`, `j = 0` or `j = n_x-1`) produces a matrix row whose only
nonzero entry is the coefficient `1` on the diagonal (column `k`), with the
boundary value `sol(x_j, y_i)` placed in `b[k]`; every interior point
produces a row with exactly the 5-point stencil entries
`[1/dy², 1/dx², -2/dx² - 2/dy², 1/dx², 1/dy²]` at columns
`k-n_x, k-1, k, k+1, k+n_x` and zero elsewhere, with
`b[k] = f(x_j, y_i)`. -/
theorem C4_poisson_assembly (x_l x_u y_l y_u dx dy : ℚ) (n_x n_y : ℕ)
    (sol f : ℚ → ℚ → ℚ) (A : List (ℤ × ℤ × ℚ))
    (hdx : dx = (x_u - x_l) / ((n_x : ℚ) - 1))
    (hdy : dy = (y_u - y_l) / ((n_y : ℚ) - 1))
    (hA : (poissonSystem x_l x_u y_l y_u n_x n_y sol f).1 = some A)
    (i j : ℕ) (hi : i < n_y) (hj : j < n_x) :
    ((i = 0 ∨ i = n_y - 1 ∨ j = 0 ∨ j = n_x - 1) →
      (∀ c : ℤ, cooEntry A ((i : ℤ) * n_x + j) c =
        (if c = (i : ℤ) * n_x + j then 1 else 0)) ∧
      (poissonSystem x_l x_u y_l y_u n_x n_y sol f).2 ((i : ℤ) * n_x + j) =
        sol (x_l + j * dx) (y_l + i * dy)) ∧
    (¬(i = 0 ∨ i = n_y - 1 ∨ j = 0 ∨ j = n_x - 1) →
      (∀ c : ℤ, cooEntry A ((i : ℤ) * n_x + j) c =
        (if c = (i : ℤ) * n_x + j - n_x then 1 / dy ^ 2
         else if c = (i : ℤ) * n_x + j - 1 then 1 / dx ^ 2
         else if c = (i : ℤ) * n_x + j then -2 / dx ^ 2 - 2 / dy ^ 2
         else if c = (i : ℤ) * n_x + j + 1 then 1 / dx ^ 2
         else if c = (i : ℤ) * n_x + j + n_x then 1 / dy ^ 2 else 0)) ∧
      (poissonSystem x_l x_u y_l y_u n_x n_y sol f).2 ((i : ℤ) * n_x + j) =
        f (x_l + j * dx) (y_l + i * dy)) := by
  subst hdx
  subst hdy
  rw [poissonSystem_fst] at hA
  cases hA
  constructor
  · intro hb
    refine ⟨fun c => ?_, ?_⟩
    · rw [poissonTriples_entry n_x n_y _ _ hi hj c,
        poissonEntry_boundary _ _ hb c]
    · rw [poissonSystem_b x_l x_u y_l y_u n_x n_y sol f hi hj, if_pos hb]
  · intro hb
    refine ⟨fun c => ?_, ?_⟩
    · rw [poissonTriples_entry n_x n_y _ _ hi hj c,
        poissonEntry_interior _ _ hi hj hb c]
    · rw [poissonSystem_b x_l x_u y_l y_u n_x n_y sol f hi hj, if_neg hb]

/-- Witness for C4 on the 3×3 grid over `[0,2]×[0,2]` (`dx = dy = 1`) with
`sol(a,b) = a+b`, `f = 0`, at the interior point `i = 1`, `j = 1`. -/
theorem C4_poisson_assembly_witness :
    (1 : ℚ) = (2 - 0) / ((3 : ℚ) - 1) ∧
    (poissonSystem 0 2 0 2 3 3 (fun a b => a + b) (fun _ _ => 0)).1 =
      some (poissonTriples 3 3 ((2 - 0) / ((3 : ℚ) - 1))
        ((2 - 0) / ((3 : ℚ) - 1))) ∧
    (1 : ℕ) < 3 ∧
    (¬((1 : ℕ) = 0 ∨ (1 : ℕ) = 3 - 1 ∨ (1 : ℕ) = 0 ∨ (1 : ℕ) = 3 - 1) →
      (∀ c : ℤ, cooEntry (poissonTriples 3 3 ((2 - 0) / ((3 : ℚ) - 1))
          ((2 - 0) / ((3 : ℚ) - 1))) ((1 : ℤ) * 3 + 1) c =
        (if c = (1 : ℤ) * 3 + 1 - 3 then 1 / (1 : ℚ) ^ 2
         else if c = (1 : ℤ) * 3 + 1 - 1 then 1 / (1 : ℚ) ^ 2
         else if c = (1 : ℤ) * 3 + 1 then
           -2 / (1 : ℚ) ^ 2 - 2 / (1 : ℚ) ^ 2
         else if c = (1 : ℤ) * 3 + 1 + 1 then 1 / (1 : ℚ) ^ 2
         else if c = (1 : ℤ) * 3 + 1 + 3 then 1 / (1 : ℚ) ^ 2 else 0)) ∧
      (poissonSystem 0 2 0 2 3 3 (fun a b => a + b) (fun _ _ => 0)).2
        ((1 : ℤ) * 3 + 1) = 0) :=
  have hdx : (1 : ℚ) = (2 - 0) / ((3 : ℚ) - 1) := by norm_num
  have hA : (poissonSystem 0 2 0 2 3 3 (fun a b => a + b)
      (fun _ _ => 0)).1 =
      some (poissonTriples 3 3 ((2 - 0) / ((3 : ℚ) - 1))
        ((2 - 0) / ((3 : ℚ) - 1))) :=
    poissonSystem_fst 0 2 0 2 3 3 _ _
  ⟨hdx, hA, by norm_num,
    (C4_poisson_assembly 0 2 0 2 1 1 3 3 (fun a b => a + b) (fun _ _ => 0)
      _ hdx hdx hA 1 1 (by norm_num) (by norm_num)).2⟩

/-- **C9** (implicit): in the assembled 2-D Poisson matrix, every interior
row sums exactly to zero (`1/dy² + 1/dx² + (-2/dx² - 2/dy²) + 1/dx² +
1/dy² = 0`), so the discrete Laplacian applied to any constant vector is
zero at every interior grid point; boundary rows sum to exactly `1`. -/
theorem C9_poisson_row_sums (x_l x_u y_l y_u : ℚ) (n_x n_y : ℕ)
    (sol f : ℚ → ℚ → ℚ) (A : List (ℤ × ℤ × ℚ))
    (hA : (poissonSystem x_l x_u y_l y_u n_x n_y sol f).1 = some A)
    (i j : ℕ) (hi : i < n_y) (hj : j < n_x) :
    (¬(i = 0 ∨ i = n_y - 1 ∨ j = 0 ∨ j = n_x - 1) →
      cooRowSum A ((i : ℤ) * n_x + j) = 0 ∧
      ∀ cst : ℚ, matVec A ((n_x : ℤ) * n_y) (fun _ => cst)
        ((i : ℤ) * n_x + j) = 0) ∧
    ((i = 0 ∨ i = n_y - 1 ∨ j = 0 ∨ j = n_x - 1) →
      cooRowSum A ((i : ℤ) * n_x + j) = 1) := by
  rw [poissonSystem_fst] at hA
  cases hA
  constructor
  · intro hb
    have hsum : cooRowSum (poissonTriples n_x n_y
        ((x_u - x_l) / ((n_x : ℚ) - 1)) ((y_u - y_l) / ((n_y : ℚ) - 1)))
        ((i : ℤ) * n_x + j) = 0 := by
      rw [poissonTriples_rowSum n_x n_y _ _ hi hj,
        poissonRowSum_interior _ _ hb]
    refine ⟨hsum, fun cst => ?_⟩
    rw [matVec_const _ _ _ cst (fun t ht _ => poissonTriples_cols ht),
      hsum, zero_mul]
  · intro hb
    rw [poissonTriples_rowSum n_x n_y _ _ hi hj,
      poissonRowSum_boundary _ _ hb]

/-- Witness for C9 on the 3×3 grid over `[0,2]×[0,2]` with `sol(a,b) = a+b`,
`f = 0`: interior point `i = 1`, `j = 1` and boundary point `i = 0`,
`j = 1`. -/
theorem C9_poisson_row_sums_witness :
    (poissonSystem 0 2 0 2 3 3 (fun a b => a + b) (fun _ _ => 0)).1 =
      some (poissonTriples 3 3 ((2 - 0) / ((3 : ℚ) - 1))
        ((2 - 0) / ((3 : ℚ) - 1))) ∧
    (1 : ℕ) < 3 ∧
    (¬((1 : ℕ) = 0 ∨ (1 : ℕ) = 3 - 1 ∨ (1 : ℕ) = 0 ∨ (1 : ℕ) = 3 - 1) →
      cooRowSum (poissonTriples 3 3 ((2 - 0) / ((3 : ℚ) - 1))
        ((2 - 0) / ((3 : ℚ) - 1))) ((1 : ℤ) * 3 + 1) = 0 ∧
      ∀ cst : ℚ, matVec (poissonTriples 3 3 ((2 - 0) / ((3 : ℚ) - 1))
        ((2 - 0) / ((3 : ℚ) - 1))) ((3 : ℤ) * 3) (fun _ => cst)
        ((1 : ℤ) * 3 + 1) = 0) ∧
    (((0 : ℕ) = 0 ∨ (0 : ℕ) = 3 - 1 ∨ (1 : ℕ) = 0 ∨ (1 : ℕ) = 3 - 1) →
      cooRowSum (poissonTriples 3 3 ((2 - 0) / ((3 : ℚ) - 1))
        ((2 - 0) / ((3 : ℚ) - 1))) ((0 : ℤ) * 3 + 1) = 1) :=
  have hA : (poissonSystem 0 2 0 2 3 3 (fun a b => a + b)
      (fun _ _ => 0)).1 =
      some (poissonTriples 3 3 ((2 - 0) / ((3 : ℚ) - 1))
        ((2 - 0) / ((3 : ℚ) - 1))) :=
    poissonSystem_fst 0 2 0 2 3 3 _ _
  ⟨hA, by norm_num,
    (C9_poisson_row_sums 0 2 0 2 3 3 (fun a b => a + b) (fun _ _ => 0)
      _ hA 1 1 (by norm_num) (by norm_num)).1,
    (C9_poisson_row_sums 0 2 0 2 3 3 (fun a b => a + b) (fun _ _ => 0)
      _ hA 0 1 (by norm_num) (by norm_num)).2⟩

end FD
